import Mathlib

/-!
Formal model of `src/xml_breaker.py` (class `XmlBreaker`).

The Python code manipulates an lxml element tree in place.  We embed the
lxml data model shallowly as a heap of nodes addressed by natural-number
ids: an element has a tag, an attribute list, text, tail and an ordered
list of child ids.  Reading a tree out of the heap and deep-copying a
tree are fuel-bounded recursions (the fuel only has to exceed the tree
depth).  Python `ValueError`s raised by the validation code, and the
`ValueError` raised by `range(0, n, 0)`, are modelled by an error type;
log calls are modelled by an explicit message trace.

`element.getroottree()` is modelled by the explicit parameter `root`
together with the theorems' hypothesis that the target element occurs in
the tree read from `root` (lxml keeps parent pointers which the heap
elides; the hypothesis states exactly that `root` is the root of the
target's tree).
-/

namespace XmlBreaker

/-- One lxml element: tag, attributes, text, tail, ordered child ids. -/
structure Node where
  tag : String
  attrib : List (String × String)
  text : Option String
  tail : Option String
  children : List Nat
deriving DecidableEq, Inhabited, Repr

/-- The lxml object heap: node id to node, plus the next fresh id. -/
structure Heap where
  get : Nat → Option Node
  next : Nat

/-- Overwrite the node stored at id `e`. -/
def Heap.set (h : Heap) (e : Nat) (nd : Node) : Heap :=
  ⟨fun j => if j = e then some nd else h.get j, h.next⟩

/-- Allocate a fresh node; its id is `h.next`. -/
def Heap.alloc (h : Heap) (nd : Node) : Heap × Nat :=
  (⟨fun j => if j = h.next then some nd else h.get j, h.next + 1⟩, h.next)

/-- All stored ids are below `next` (holds for every heap built by the code). -/
def heapBounded (h : Heap) : Prop :=
  ∀ m, h.next ≤ m → h.get m = none

/-- A value tree read out of the heap; ids of the visited nodes are kept. -/
inductive XTree where
  | node (id : Nat) (tag : String) (attrib : List (String × String))
      (text : Option String) (tail : Option String) (children : List XTree)
deriving Repr

/-- Root id of a value tree. -/
def rootIdOf : XTree → Nat
  | .node i _ _ _ _ _ => i

mutual
/-- All node ids occurring in a value tree (root first, preorder). -/
def idsOf : XTree → List Nat
  | .node i _ _ _ _ cs => i :: idsOfList cs
/-- Ids of a forest. -/
def idsOfList : List XTree → List Nat
  | [] => []
  | t :: ts => idsOf t ++ idsOfList ts
end

mutual
/-- Erase the ids of a value tree (content-only view, used to compare a
deep copy with its source). -/
def strip : XTree → XTree
  | .node _ tg a x tl cs => .node 0 tg a x tl (stripList cs)
/-- Erase the ids of a forest. -/
def stripList : List XTree → List XTree
  | [] => []
  | t :: ts => strip t :: stripList ts
end

mutual
/-- Read the tree rooted at id `i` (fuel bounds the depth). -/
def readTree (f : Nat) (h : Heap) (i : Nat) : Option XTree :=
  match f with
  | 0 => none
  | Nat.succ f1 =>
    match h.get i with
    | none => none
    | some nd =>
      match readList f1 h nd.children with
      | none => none
      | some ts => some (XTree.node i nd.tag nd.attrib nd.text nd.tail ts)
termination_by (f, 0)
/-- Read a forest of sibling trees. -/
def readList (f : Nat) (h : Heap) (l : List Nat) : Option (List XTree) :=
  match l with
  | [] => some []
  | c :: rest =>
    match readTree f h c with
    | none => none
    | some t =>
      match readList f h rest with
      | none => none
      | some ts => some (t :: ts)
termination_by (f, l.length + 1)
end

mutual
/-- Deep copy (`__deepcopy__`) of the tree rooted at `i`: children are
copied first, then a fresh node is allocated, so every id of the copy is
fresh (at least the heap's `next` at call time). -/
def copyNode (f : Nat) (h : Heap) (i : Nat) : Option (Heap × Nat) :=
  match f with
  | 0 => none
  | Nat.succ f1 =>
    match h.get i with
    | none => none
    | some nd =>
      match copyList f1 h nd.children with
      | none => none
      | some hc => some (hc.1.alloc { nd with children := hc.2 })
termination_by (f, 0)
/-- Deep copy of a forest, left to right, threading the heap. -/
def copyList (f : Nat) (h : Heap) (l : List Nat) : Option (Heap × List Nat) :=
  match l with
  | [] => some (h, [])
  | c :: rest =>
    match copyNode f h c with
    | none => none
    | some hc =>
      match copyList f hc.1 rest with
      | none => none
      | some hcs => some (hcs.1, hc.2 :: hcs.2)
termination_by (f, l.length + 1)
end

/-- Subtree of a value tree at a child-index path (`[]` is the tree itself). -/
def subtreeAtPath : XTree → List Nat → Option XTree
  | t, [] => some t
  | .node _ _ _ _ _ cs, n :: q =>
    match cs.get? n with
    | none => none
    | some c => subtreeAtPath c q

/-- Rewrite the subtree at a child-index path with `g`, leaving every
node off the path untouched. -/
def updateAtPath (g : XTree → XTree) : XTree → List Nat → XTree
  | t, [] => g t
  | .node i tg a x tl cs, n :: q =>
    match cs.get? n with
    | none => .node i tg a x tl cs
    | some c => .node i tg a x tl (cs.set n (updateAtPath g c q))

/-- Effect of one loop iteration of `split_records` on the target node:
`element.clear()` erases attributes, text, tail and children, and the
appends re-attach the slice `records[a : a + b]` of the original
children.  The tag survives; the child subtrees are unchanged. -/
def chunkNode (a b : Nat) : XTree → XTree
  | .node i tg _ _ _ cs => .node i tg [] none none ((cs.drop a).take b)

/-- Errors: the explicit `raise ValueError(msg)` validations of
`XmlBreaker` (the spec's `InvalidInput`), the `ValueError` raised by
`range(0, n, 0)` inside the chunking comprehension, and an
out-of-model-fuel marker that never fires on well-formed input. -/
inductive Err where
  | invalidInput (msg : String)
  | rangeZeroStep
  | outOfFuel
deriving DecidableEq, Repr

/-- Logger trace entries (`logger.info` / `logger.error`). -/
inductive Log where
  | info (msg : String)
  | error (msg : String)
deriving DecidableEq, Repr

/-- A Python argument passed where an element is expected: `None`, an
actual `etree._Element` (a heap id), or a value of any other type
(`type(element) is not etree._Element` rejects it; `ty` names the type). -/
inductive PyArg where
  | pyNone
  | element (e : Nat)
  | other (ty : String)
deriving DecidableEq, Repr

/-- A Python iterable of candidate elements: its truthiness as seen by
`if not elements` (a list is falsy iff empty, a generator is always
truthy even when exhausted) and its iteration order. -/
structure PyIter where
  truthy : Bool
  items : List Nat
deriving DecidableEq, Repr

/-- `element.getchildren()`: the ordered child ids of a live element. -/
def getchildren (h : Heap) (e : Nat) : List Nat :=
  ((h.get e).getD default).children

/-- `element.clear()` (lxml): removes all children, clears all
attributes and resets text and tail to `None`.  The detached children
stay alive in the heap (the Python code still references them). -/
def elemClear (h : Heap) (e : Nat) : Heap :=
  match h.get e with
  | none => h
  | some nd => h.set e { nd with attrib := [], text := none, tail := none, children := [] }

/-- `element.append(record)`: attach `c` as last child of `e`. -/
def elemAppend (h : Heap) (e c : Nat) : Heap :=
  match h.get e with
  | none => h
  | some nd => h.set e { nd with children := nd.children ++ [c] }

/-- The appends of one loop iteration: `for record in chunk: element.append(record)`. -/
def appendAll (e : Nat) (chunk : List Nat) (h : Heap) : Heap :=
  chunk.foldl (fun hh r => elemAppend hh e r) h

/-- Python slice `l[i : i + k]` for nonnegative `i`, `k`. -/
def pySlice (l : List α) (i k : Nat) : List α :=
  (l.drop i).take k

/-- `range(0, n, k)` for `k > 0`: the chunk start offsets `0, k, 2k, …`
(`⌈n / k⌉` of them). -/
def pyRangeStarts (n k : Nat) : List Nat :=
  (List.range ((n + k - 1) / k)).map (fun j => j * k)

/-- The chunking comprehension
`[records[i : i + k] for i in range(0, len(records), k)]` for `k > 0`. -/
def pyChunk (records : List α) (k : Nat) : List (List α) :=
  (pyRangeStarts records.length k).map (fun i => pySlice records i k)

/-- The chunking comprehension for an arbitrary `int` chunk size:
`range` raises `ValueError` on step `0`, and for a negative step
`range(0, n, k)` is empty (`n ≥ 0`), so no chunk is produced. -/
def pyChunked (records : List α) (k : Int) : Except Err (List (List α)) :=
  if k = 0 then .error .rangeZeroStep
  else if k < 0 then .ok []
  else .ok (pyChunk records k.toNat)

/-- Tag of a live element (used by the `element.tag == tag` comparison). -/
def tagOfId (h : Heap) (c : Nat) : String :=
  ((h.get c).getD default).tag

/-- The lookup loop of `get_element_by_tag`: first element whose tag
equals `tag` exactly (case-sensitive string equality). -/
def findByTag (h : Heap) (tag : String) : List Nat → Option Nat
  | [] => none
  | c :: rest => if tagOfId h c = tag then some c else findByTag h tag rest

/-- `get_element_by_tag`: validations, then the loop; on no match the
error is logged and no result is returned (no exception). -/
def get_element_by_tag (h : Heap) (tag : String) (elements : PyIter) :
    Except Err (Option Nat) × List Log :=
  if tag = "" then (.error (.invalidInput "Tag is required."), [])
  else if elements.truthy = false then (.error (.invalidInput "Parent element is required."), [])
  else
    match findByTag h tag elements.items with
    | some x => (.ok (some x), [])
    | none => (.ok none, [Log.error ("Element with tag " ++ tag ++ " not found.")])

/-- The loop of `split_records`: for each chunk, clear the live target,
append the chunk, optionally log, then deep-copy the whole tree of
`root` and collect the copy. -/
def splitLoop (f root e : Nat) (dm : Bool) :
    List (List Nat) → Heap → Except Err (List Nat) × Heap × List Log
  | [], h => (.ok [], h, [])
  | chunk :: rest, h =>
    let h2 := appendAll e chunk (elemClear h e)
    let lg1 : List Log :=
      if dm then [Log.info (toString (getchildren h2 e).length ++ " records in element.")]
      else []
    match copyNode f h2 root with
    | none => (.error .outOfFuel, h2, lg1)
    | some hx =>
      let r := splitLoop f root e dm rest hx.1
      (r.1.map (fun xs => hx.2 :: xs), r.2.1, lg1 ++ r.2.2)

/-- `split_records(element, number_of_records, display_messages)`.
Returns the produced documents (ids of the copied roots) or the raised
error, together with the final heap and the log trace.  In the Python
source `number_of_records` defaults to `250` and `display_messages` to
`False`; the defaults play no role here and the arguments are explicit. -/
def split_records (f : Nat) (h : Heap) (root : Nat) (arg : PyArg)
    (number_of_records : Int) (display_messages : Bool) :
    Except Err (List Nat) × Heap × List Log :=
  match arg with
  | .pyNone => (.error (.invalidInput "Element is required."), h, [])
  | .other ty =>
    (.error (.invalidInput ("element must be an instance of" ++ "etree.Element. Received " ++ ty)),
      h, [])
  | .element e =>
    let records := getchildren h e
    let lg0 : List Log :=
      if display_messages then [Log.info (toString records.length ++ " records found in element.")]
      else []
    match pyChunked records number_of_records with
    | .error er => (.error er, h, lg0)
    | .ok chunks =>
      let r := splitLoop f root e display_messages chunks h
      (r.1, r.2.1, lg0 ++ r.2.2)

/-- File events of `write_xml`: `Path(file_path).open("wb")` creates or
truncates the file, then the document is written, then the `with` block
closes the handle on every exit path. -/
inductive FileEv where
  | openWriteTruncate (path : String)
  | writeBytes
  | close
deriving DecidableEq, Repr

/-- Result of a successful `write_xml` call: the ordered file events and
the serialization parameters passed to `ElementTree.write` (UTF-8
encoding, XML declaration, pretty-printing) plus the serialized
document, i.e. the whole tree read from its root. -/
structure WriteOut where
  events : List FileEv
  encoding : String
  xmlDeclaration : Bool
  prettyPrint : Bool
  content : Option XTree
deriving Repr

/-- `write_xml(element, file_path)`.  The serialization itself is lxml's
(`_ElementTree.write`, reached through the document tree that owns the
element — the values returned by `split_records` are such trees), so the
model records the written document and the flags rather than bytes. -/
def write_xml (f : Nat) (h : Heap) (tree : Nat) (file_path : String) :
    Except Err WriteOut :=
  if file_path = "" then .error (.invalidInput "File path is required.")
  else
    .ok ⟨[.openWriteTruncate file_path, .writeBytes, .close],
      "utf-8", true, true, readTree f h tree⟩

/-- State retained by `XmlBreaker.__init__`: the parsed document. -/
structure InitState where
  heap : Heap
  treeRoot : Nat

/-- `XmlBreaker.__init__(etree, xml, logger)`: empty bytes are rejected
before anything else happens; otherwise the bytes are parsed by the
external library (modelled by the `parse` argument) and retained.
The retained root tree and lazy `iter()` traversal are derived views of
the parsed document and carry no extra state of their own. -/
def xmlBreakerInit (parse : List Nat → Heap × Nat) (xml : List Nat) :
    Except Err InitState :=
  if xml = [] then .error (.invalidInput "XML bytes content is required.")
  else
    let hp := parse xml
    .ok ⟨hp.1, hp.2⟩

/-- Concrete example document: root (id 0) with an attribute, text and
three record children (ids 1, 2, 3). -/
def exHeap : Heap where
  get := fun j =>
    if j = 0 then some ⟨"root", [("a", "1")], some "t", none, [1, 2, 3]⟩
    else if j = 1 then some ⟨"r1", [], none, none, []⟩
    else if j = 2 then some ⟨"r2", [], none, none, []⟩
    else if j = 3 then some ⟨"r3", [], none, none, []⟩
    else none
  next := 4

/-- The record children of `exHeap` as value trees. -/
def exKids : List XTree :=
  [.node 1 "r1" [] none none [], .node 2 "r2" [] none none [],
   .node 3 "r3" [] none none []]

/-- The value tree of `exHeap` read from id 0. -/
def exTree : XTree :=
  .node 0 "root" [("a", "1")] (some "t") none exKids

/-- A document whose root element carries an attribute and text but has
no children (used for the zero-children edge case). -/
def exLeafHeap : Heap where
  get := fun j =>
    if j = 0 then some ⟨"r", [("a", "1")], some "x", none, []⟩ else none
  next := 1

theorem Heap.get_set (h : Heap) (e : Nat) (nd : Node) (j : Nat) :
    (h.set e nd).get j = if j = e then some nd else h.get j := rfl

theorem Heap.next_set (h : Heap) (e : Nat) (nd : Node) :
    (h.set e nd).next = h.next := rfl

theorem Heap.ext2 {h1 h2 : Heap} (hg : ∀ j, h1.get j = h2.get j)
    (hn : h1.next = h2.next) : h1 = h2 := by
  cases h1
  cases h2
  simp only [Heap.mk.injEq]
  exact ⟨funext hg, hn⟩

theorem Heap.set_set (h : Heap) (e : Nat) (a b : Node) :
    (h.set e a).set e b = h.set e b := by
  refine Heap.ext2 (fun j => ?_) rfl
  by_cases hj : j = e <;> simp [Heap.get_set, hj]

theorem idsOf_node (i : Nat) (tg : String) (a : List (String × String))
    (x tl : Option String) (cs : List XTree) :
    idsOf (.node i tg a x tl cs) = i :: idsOfList cs := by
  simp [idsOf]

theorem idsOfList_nil : idsOfList [] = [] := by simp [idsOfList]

theorem idsOfList_cons (t : XTree) (ts : List XTree) :
    idsOfList (t :: ts) = idsOf t ++ idsOfList ts := by
  simp [idsOfList]

theorem strip_node (i : Nat) (tg : String) (a : List (String × String))
    (x tl : Option String) (cs : List XTree) :
    strip (.node i tg a x tl cs) = .node 0 tg a x tl (stripList cs) := by
  simp [strip]

theorem stripList_nil : stripList [] = [] := by simp [stripList]

theorem stripList_cons (t : XTree) (ts : List XTree) :
    stripList (t :: ts) = strip t :: stripList ts := by
  simp [stripList]

theorem readTree_zero (h : Heap) (i : Nat) : readTree 0 h i = none := by
  rw [readTree]

theorem readTree_succ (f : Nat) (h : Heap) (i : Nat) :
    readTree (f + 1) h i =
      match h.get i with
      | none => none
      | some nd =>
        match readList f h nd.children with
        | none => none
        | some ts => some (XTree.node i nd.tag nd.attrib nd.text nd.tail ts) := by
  rw [readTree]

theorem readList_nil (f : Nat) (h : Heap) : readList f h [] = some [] := by
  rw [readList]

theorem readList_cons (f : Nat) (h : Heap) (c : Nat) (rest : List Nat) :
    readList f h (c :: rest) =
      match readTree f h c with
      | none => none
      | some t =>
        match readList f h rest with
        | none => none
        | some ts => some (t :: ts) := by
  rw [readList]

theorem read_rootId {f : Nat} {h : Heap} {i : Nat} {t : XTree}
    (ht : readTree f h i = some t) : rootIdOf t = i := by
  cases f with
  | zero => rw [readTree_zero] at ht; cases ht
  | succ f =>
    rw [readTree_succ] at ht
    cases hg : h.get i with
    | none => simp only [hg] at ht; exact Option.noConfusion ht
    | some nd =>
      simp only [hg] at ht
      cases hl : readList f h nd.children with
      | none => simp only [hl] at ht; exact Option.noConfusion ht
      | some ts =>
        simp only [hl, Option.some.injEq] at ht
        subst ht
        rfl

theorem readTree_succ_elim {f : Nat} {h : Heap} {i : Nat} {t : XTree}
    (ht : readTree (f + 1) h i = some t) :
    ∃ nd ts, h.get i = some nd ∧ readList f h nd.children = some ts ∧
      t = XTree.node i nd.tag nd.attrib nd.text nd.tail ts := by
  rw [readTree_succ] at ht
  cases hg : h.get i with
  | none => simp only [hg] at ht; exact Option.noConfusion ht
  | some nd =>
    simp only [hg] at ht
    cases hl : readList f h nd.children with
    | none => simp only [hl] at ht; exact Option.noConfusion ht
    | some ts =>
      simp only [hl, Option.some.injEq] at ht
      exact ⟨nd, ts, rfl, hl, ht.symm⟩

theorem readList_cons_elim {f : Nat} {h : Heap} {c : Nat} {rest : List Nat}
    {us : List XTree} (hl : readList f h (c :: rest) = some us) :
    ∃ t ts, readTree f h c = some t ∧ readList f h rest = some ts ∧
      us = t :: ts := by
  rw [readList_cons] at hl
  cases ht : readTree f h c with
  | none => simp only [ht] at hl; exact Option.noConfusion hl
  | some t =>
    simp only [ht] at hl
    cases hts : readList f h rest with
    | none => simp only [hts] at hl; exact Option.noConfusion hl
    | some ts =>
      simp only [hts, Option.some.injEq] at hl
      exact ⟨t, ts, rfl, rfl, hl.symm⟩

theorem read_step (h : Heap) :
    ∀ f, (∀ i t, readTree f h i = some t → readTree (f + 1) h i = some t) := by
  intro f
  induction f with
  | zero => intro i t ht; rw [readTree_zero] at ht; cases ht
  | succ f ih =>
    have ihl : ∀ l ts, readList f h l = some ts → readList (f + 1) h l = some ts := by
      intro l
      induction l with
      | nil => intro ts hts; rw [readList_nil] at hts; cases hts; exact readList_nil _ _
      | cons c rest ihr =>
        intro ts hts
        obtain ⟨t, ts1, htc, htr, rfl⟩ := readList_cons_elim hts
        simp only [readList_cons, ih c t htc, ihr ts1 htr]
    intro i t ht
    obtain ⟨nd, ts, hg, hl, rfl⟩ := readTree_succ_elim ht
    simp only [readTree_succ, hg, ihl _ _ hl]

theorem readList_step {f : Nat} {h : Heap} {l : List Nat} {ts : List XTree}
    (hl : readList f h l = some ts) : readList (f + 1) h l = some ts := by
  induction l generalizing ts with
  | nil => rw [readList_nil] at hl; cases hl; exact readList_nil _ _
  | cons c rest ih =>
    obtain ⟨t, ts1, htc, htr, rfl⟩ := readList_cons_elim hl
    simp only [readList_cons, read_step h f c t htc, ih htr]

theorem readTree_mono {f f2 : Nat} {h : Heap} {i : Nat} {t : XTree}
    (hle : f ≤ f2) (ht : readTree f h i = some t) : readTree f2 h i = some t := by
  induction hle with
  | refl => exact ht
  | step _ ih => exact read_step h _ i t ih

theorem readList_mono {f f2 : Nat} {h : Heap} {l : List Nat} {ts : List XTree}
    (hle : f ≤ f2) (hl : readList f h l = some ts) : readList f2 h l = some ts := by
  induction hle with
  | refl => exact hl
  | step _ ih => exact readList_step ih

theorem read_frame_both (h h2 : Heap) :
    ∀ f, (∀ i t, readTree f h i = some t →
        (∀ m ∈ idsOf t, h2.get m = h.get m) → readTree f h2 i = some t) ∧
      (∀ l ts, readList f h l = some ts →
        (∀ m ∈ idsOfList ts, h2.get m = h.get m) → readList f h2 l = some ts) := by
  intro f
  induction f with
  | zero =>
    constructor
    · intro i t ht; rw [readTree_zero] at ht; cases ht
    · intro l ts hl hm
      cases l with
      | nil => rw [readList_nil] at hl; cases hl; exact readList_nil _ _
      | cons c rest =>
        obtain ⟨t, _, htc, _, _⟩ := readList_cons_elim hl
        rw [readTree_zero] at htc; cases htc
  | succ f ih =>
    have htree : ∀ i t, readTree (f + 1) h i = some t →
        (∀ m ∈ idsOf t, h2.get m = h.get m) → readTree (f + 1) h2 i = some t := by
      intro i t ht hm
      obtain ⟨nd, ts, hg, hl, rfl⟩ := readTree_succ_elim ht
      have hmi : h2.get i = h.get i := hm i (by rw [idsOf_node]; exact List.mem_cons_self _ _)
      have hml : ∀ m ∈ idsOfList ts, h2.get m = h.get m := by
        intro m hmm
        exact hm m (by rw [idsOf_node]; exact List.mem_cons_of_mem _ hmm)
      simp only [readTree_succ, hmi, hg, ih.2 nd.children ts hl hml]
    refine ⟨htree, ?_⟩
    intro l
    induction l with
    | nil => intro ts hl _; rw [readList_nil] at hl; cases hl; exact readList_nil _ _
    | cons c rest ihr =>
      intro ts hl hm
      obtain ⟨t, ts1, htc, htr, rfl⟩ := readList_cons_elim hl
      have hm1 : ∀ m ∈ idsOf t, h2.get m = h.get m := by
        intro m hmm; exact hm m (by rw [idsOfList_cons]; exact List.mem_append_left _ hmm)
      have hm2 : ∀ m ∈ idsOfList ts1, h2.get m = h.get m := by
        intro m hmm; exact hm m (by rw [idsOfList_cons]; exact List.mem_append_right _ hmm)
      simp only [readList_cons, htree c t htc hm1, ihr ts1 htr hm2]

theorem readTree_frame {f : Nat} {h h2 : Heap} {i : Nat} {t : XTree}
    (ht : readTree f h i = some t) (hm : ∀ m ∈ idsOf t, h2.get m = h.get m) :
    readTree f h2 i = some t :=
  (read_frame_both h h2 f).1 i t ht hm

theorem readList_frame {f : Nat} {h h2 : Heap} {l : List Nat} {ts : List XTree}
    (hl : readList f h l = some ts) (hm : ∀ m ∈ idsOfList ts, h2.get m = h.get m) :
    readList f h2 l = some ts :=
  (read_frame_both h h2 f).2 l ts hl hm

theorem read_ids_both (h : Heap) :
    ∀ f, (∀ i t, readTree f h i = some t →
        ∀ m ∈ idsOf t, ∃ nd, h.get m = some nd) ∧
      (∀ l ts, readList f h l = some ts →
        ∀ m ∈ idsOfList ts, ∃ nd, h.get m = some nd) := by
  intro f
  induction f with
  | zero =>
    constructor
    · intro i t ht; rw [readTree_zero] at ht; cases ht
    · intro l ts hl m hm
      cases l with
      | nil => rw [readList_nil] at hl; cases hl; rw [idsOfList_nil] at hm; cases hm
      | cons c rest =>
        obtain ⟨t, _, htc, _, _⟩ := readList_cons_elim hl
        rw [readTree_zero] at htc; cases htc
  | succ f ih =>
    have htree : ∀ i t, readTree (f + 1) h i = some t →
        ∀ m ∈ idsOf t, ∃ nd, h.get m = some nd := by
      intro i t ht m hm
      obtain ⟨nd, ts, hg, hl, rfl⟩ := readTree_succ_elim ht
      rw [idsOf_node] at hm
      rcases List.mem_cons.mp hm with rfl | hm2
      · exact ⟨nd, hg⟩
      · exact ih.2 nd.children ts hl m hm2
    refine ⟨htree, ?_⟩
    intro l
    induction l with
    | nil =>
      intro ts hl m hm
      rw [readList_nil] at hl; cases hl; rw [idsOfList_nil] at hm; cases hm
    | cons c rest ihr =>
      intro ts hl m hm
      obtain ⟨t, ts1, htc, htr, rfl⟩ := readList_cons_elim hl
      rw [idsOfList_cons] at hm
      rcases List.mem_append.mp hm with hm1 | hm2
      · exact htree c t htc m hm1
      · exact ihr ts1 htr m hm2

theorem readTree_ids_lt {f : Nat} {h : Heap} {i : Nat} {t : XTree}
    (hb : heapBounded h) (ht : readTree f h i = some t) :
    ∀ m ∈ idsOf t, m < h.next := by
  intro m hm
  by_contra hlt
  obtain ⟨nd, hnd⟩ := (read_ids_both h f).1 i t ht m hm
  rw [hb m (Nat.le_of_not_lt hlt)] at hnd
  cases hnd

theorem readList_ids_lt {f : Nat} {h : Heap} {l : List Nat} {ts : List XTree}
    (hb : heapBounded h) (hl : readList f h l = some ts) :
    ∀ m ∈ idsOfList ts, m < h.next := by
  intro m hm
  by_contra hlt
  obtain ⟨nd, hnd⟩ := (read_ids_both h f).2 l ts hl m hm
  rw [hb m (Nat.le_of_not_lt hlt)] at hnd
  cases hnd

theorem readList_roots {f : Nat} {h : Heap} {l : List Nat} {ts : List XTree}
    (hl : readList f h l = some ts) : ts.map rootIdOf = l := by
  induction l generalizing ts with
  | nil => rw [readList_nil] at hl; cases hl; rfl
  | cons c rest ih =>
    obtain ⟨t, ts1, htc, htr, rfl⟩ := readList_cons_elim hl
    simp [read_rootId htc, ih htr]

theorem readList_length {f : Nat} {h : Heap} {l : List Nat} {ts : List XTree}
    (hl : readList f h l = some ts) : ts.length = l.length := by
  induction l generalizing ts with
  | nil => rw [readList_nil] at hl; cases hl; rfl
  | cons c rest ih =>
    obtain ⟨t, ts1, htc, htr, rfl⟩ := readList_cons_elim hl
    simp [ih htr]

theorem readList_get {f : Nat} {h : Heap} {l : List Nat} {ts : List XTree}
    (hl : readList f h l = some ts) :
    ∀ n c, l.get? n = some c → ∃ t, ts.get? n = some t ∧ readTree f h c = some t := by
  induction l generalizing ts with
  | nil => intro n c hc; simp at hc
  | cons c0 rest ih =>
    obtain ⟨t, ts1, htc, htr, rfl⟩ := readList_cons_elim hl
    intro n c hc
    cases n with
    | zero => simp at hc; subst hc; exact ⟨t, rfl, htc⟩
    | succ n => exact ih htr n c hc

theorem readList_take {f : Nat} {h : Heap} {l : List Nat} {ts : List XTree}
    (hl : readList f h l = some ts) (a : Nat) :
    readList f h (l.take a) = some (ts.take a) := by
  induction l generalizing ts a with
  | nil => rw [readList_nil] at hl; cases hl; simp [readList_nil]
  | cons c rest ih =>
    obtain ⟨t, ts1, htc, htr, rfl⟩ := readList_cons_elim hl
    cases a with
    | zero => simp [readList_nil]
    | succ a => simp only [List.take_succ_cons, readList_cons, htc, ih htr a]

theorem readList_drop {f : Nat} {h : Heap} {l : List Nat} {ts : List XTree}
    (hl : readList f h l = some ts) (a : Nat) :
    readList f h (l.drop a) = some (ts.drop a) := by
  induction l generalizing ts a with
  | nil => rw [readList_nil] at hl; cases hl; simp [readList_nil]
  | cons c rest ih =>
    obtain ⟨t, ts1, htc, htr, rfl⟩ := readList_cons_elim hl
    cases a with
    | zero => simp only [List.drop_zero, readList_cons, htc, htr]
    | succ a => simpa using ih htr a

theorem ids_sub_of_mem {t : XTree} {ts : List XTree} (hm : t ∈ ts) :
    ∀ m ∈ idsOf t, m ∈ idsOfList ts := by
  induction ts with
  | nil => cases hm
  | cons u us ih =>
    intro m hmm
    rw [idsOfList_cons]
    rcases List.mem_cons.mp hm with rfl | hm2
    · exact List.mem_append_left _ hmm
    · exact List.mem_append_right _ (ih hm2 m hmm)

theorem Heap.get_alloc (h : Heap) (nd : Node) (j : Nat) :
    (h.alloc nd).1.get j = if j = h.next then some nd else h.get j := rfl

theorem Heap.next_alloc (h : Heap) (nd : Node) :
    (h.alloc nd).1.next = h.next + 1 := rfl

theorem Heap.snd_alloc (h : Heap) (nd : Node) : (h.alloc nd).2 = h.next := rfl

theorem copyNode_zero (h : Heap) (i : Nat) : copyNode 0 h i = none := by
  rw [copyNode]

theorem copyNode_succ (f : Nat) (h : Heap) (i : Nat) :
    copyNode (f + 1) h i =
      match h.get i with
      | none => none
      | some nd =>
        match copyList f h nd.children with
        | none => none
        | some hc => some (hc.1.alloc { nd with children := hc.2 }) := by
  rw [copyNode]

theorem copyList_nil (f : Nat) (h : Heap) : copyList f h [] = some (h, []) := by
  rw [copyList]

theorem copyList_cons (f : Nat) (h : Heap) (c : Nat) (rest : List Nat) :
    copyList f h (c :: rest) =
      match copyNode f h c with
      | none => none
      | some hc =>
        match copyList f hc.1 rest with
        | none => none
        | some hcs => some (hcs.1, hc.2 :: hcs.2) := by
  rw [copyList]

theorem copy_spec :
    ∀ f,
      (∀ (h : Heap) (i : Nat) (t : XTree), heapBounded h → readTree f h i = some t →
        ∃ h2 i2 t2, copyNode f h i = some (h2, i2) ∧
          h.next ≤ h2.next ∧ heapBounded h2 ∧
          (∀ j, j < h.next → h2.get j = h.get j) ∧
          readTree f h2 i2 = some t2 ∧ strip t2 = strip t ∧
          (∀ m ∈ idsOf t2, h.next ≤ m ∧ m < h2.next) ∧ (idsOf t2).Nodup) ∧
      (∀ (h : Heap) (l : List Nat) (ts : List XTree), heapBounded h →
          readList f h l = some ts →
        ∃ h2 l2 ts2, copyList f h l = some (h2, l2) ∧
          h.next ≤ h2.next ∧ heapBounded h2 ∧
          (∀ j, j < h.next → h2.get j = h.get j) ∧
          readList f h2 l2 = some ts2 ∧ stripList ts2 = stripList ts ∧
          (∀ m ∈ idsOfList ts2, h.next ≤ m ∧ m < h2.next) ∧
          (idsOfList ts2).Nodup) := by
  intro f
  induction f with
  | zero =>
    constructor
    · intro h i t _ ht; rw [readTree_zero] at ht; exact Option.noConfusion ht
    · intro h l ts hb hl
      cases l with
      | nil =>
        rw [readList_nil] at hl
        cases hl
        refine ⟨h, [], [], copyList_nil 0 h, Nat.le_refl _, hb, fun j _ => rfl,
          readList_nil 0 h, rfl, ?_, ?_⟩
        · intro m hm; rw [idsOfList_nil] at hm; cases hm
        · rw [idsOfList_nil]; exact List.nodup_nil
      | cons c rest =>
        obtain ⟨t, _, htc, _, _⟩ := readList_cons_elim hl
        rw [readTree_zero] at htc; exact Option.noConfusion htc
  | succ f ih =>
    have hnode : ∀ (h : Heap) (i : Nat) (t : XTree), heapBounded h →
        readTree (f + 1) h i = some t →
        ∃ h2 i2 t2, copyNode (f + 1) h i = some (h2, i2) ∧
          h.next ≤ h2.next ∧ heapBounded h2 ∧
          (∀ j, j < h.next → h2.get j = h.get j) ∧
          readTree (f + 1) h2 i2 = some t2 ∧ strip t2 = strip t ∧
          (∀ m ∈ idsOf t2, h.next ≤ m ∧ m < h2.next) ∧ (idsOf t2).Nodup := by
      intro h i t hb ht
      obtain ⟨nd, ts, hg, hl, rfl⟩ := readTree_succ_elim ht
      obtain ⟨h1, cs2, ts2, hcl, hn1, hb1, hfr1, hrl2, hst2, hid2, hnd2⟩ :=
        ih.2 h nd.children ts hb hl
      have hids2lt : ∀ m ∈ idsOfList ts2, m < h1.next := fun m hm => (hid2 m hm).2
      refine ⟨(h1.alloc { nd with children := cs2 }).1,
        (h1.alloc { nd with children := cs2 }).2,
        XTree.node h1.next nd.tag nd.attrib nd.text nd.tail ts2, ?_, ?_, ?_, ?_, ?_, ?_, ?_, ?_⟩
      · simp only [copyNode_succ, hg, hcl]
      · rw [Heap.next_alloc]; omega
      · intro m hm
        rw [Heap.next_alloc] at hm
        rw [Heap.get_alloc]
        rw [if_neg (by omega)]
        exact hb1 m (by omega)
      · intro j hj
        rw [Heap.get_alloc, if_neg (by omega)]
        exact hfr1 j (by omega)
      · rw [Heap.snd_alloc, readTree_succ]
        have hga : (h1.alloc { nd with children := cs2 }).1.get h1.next =
            some { nd with children := cs2 } := by
          rw [Heap.get_alloc, if_pos rfl]
        rw [hga]
        have hrl3 : readList f (h1.alloc { nd with children := cs2 }).1 cs2 = some ts2 := by
          refine readList_frame hrl2 ?_
          intro m hm
          rw [Heap.get_alloc, if_neg (by have := hids2lt m hm; omega)]
        simp only [hrl3]
      · rw [strip_node, strip_node, hst2]
      · intro m hm
        rw [idsOf_node] at hm
        rw [Heap.next_alloc]
        rcases List.mem_cons.mp hm with rfl | hm2
        · omega
        · have := hid2 m hm2; omega
      · rw [idsOf_node, List.nodup_cons]
        exact ⟨fun hmem => by have := hids2lt _ hmem; omega, hnd2⟩
    have hlist : ∀ (l : List Nat) (h : Heap) (ts : List XTree), heapBounded h →
        readList (f + 1) h l = some ts →
        ∃ h2 l2 ts2, copyList (f + 1) h l = some (h2, l2) ∧
          h.next ≤ h2.next ∧ heapBounded h2 ∧
          (∀ j, j < h.next → h2.get j = h.get j) ∧
          readList (f + 1) h2 l2 = some ts2 ∧ stripList ts2 = stripList ts ∧
          (∀ m ∈ idsOfList ts2, h.next ≤ m ∧ m < h2.next) ∧
          (idsOfList ts2).Nodup := by
      intro l
      induction l with
      | nil =>
        intro h ts hb hl
        rw [readList_nil] at hl
        cases hl
        refine ⟨h, [], [], copyList_nil _ h, Nat.le_refl _, hb, fun j _ => rfl,
          readList_nil _ h, rfl, ?_, ?_⟩
        · intro m hm; rw [idsOfList_nil] at hm; cases hm
        · rw [idsOfList_nil]; exact List.nodup_nil
      | cons c rest ihr =>
        intro h ts hb hl
        obtain ⟨t, ts1, htc, htr, rfl⟩ := readList_cons_elim hl
        obtain ⟨h1, c2, t2, hcn, hn1, hb1, hfr1, hrt2, hst2, hid2, hnd2⟩ :=
          hnode h c t hb htc
        have htr1 : readList (f + 1) h1 rest = some ts1 := by
          refine readList_frame htr ?_
          intro m hm
          exact hfr1 m (readList_ids_lt hb htr m hm)
        obtain ⟨h2, l2, ts2, hcl, hn2, hb2, hfr2, hrl2, hstl2, hidl2, hndl2⟩ :=
          ihr h1 ts1 hb1 htr1
        have hid2lt : ∀ m ∈ idsOf t2, m < h1.next := fun m hm => (hid2 m hm).2
        refine ⟨h2, c2 :: l2, t2 :: ts2, ?_, by omega, hb2, ?_, ?_, ?_, ?_, ?_⟩
        · simp only [copyList_cons, hcn, hcl]
        · intro j hj
          rw [hfr2 j (by omega)]
          exact hfr1 j hj
        · have hrt2b : readTree (f + 1) h2 c2 = some t2 := by
            refine readTree_frame hrt2 ?_
            intro m hm
            exact hfr2 m (hid2lt m hm)
          simp only [readList_cons, hrt2b, hrl2]
        · rw [stripList_cons, stripList_cons, hst2, hstl2]
        · intro m hm
          rw [idsOfList_cons] at hm
          rcases List.mem_append.mp hm with hm1 | hm2
          · have := hid2 m hm1; omega
          · have := hidl2 m hm2; omega
        · rw [idsOfList_cons, List.nodup_append]
          refine ⟨hnd2, hndl2, ?_⟩
          intro m hm1 hm2
          have := hid2 m hm1
          have := hidl2 m hm2
          omega
    exact ⟨hnode, fun h l ts => hlist l h ts⟩

theorem subtreeAtPath_nil (t : XTree) : subtreeAtPath t [] = some t := by
  simp [subtreeAtPath]

theorem subtreeAtPath_cons_elim {i : Nat} {tg : String} {a : List (String × String)}
    {x tl : Option String} {cs : List XTree} {n : Nat} {q : List Nat} {s : XTree}
    (hs : subtreeAtPath (.node i tg a x tl cs) (n :: q) = some s) :
    ∃ c, cs.get? n = some c ∧ subtreeAtPath c q = some s := by
  rw [subtreeAtPath] at hs
  cases hc : cs.get? n with
  | none => simp only [hc] at hs; exact Option.noConfusion hs
  | some c => simp only [hc] at hs; exact ⟨c, rfl, hs⟩

theorem updateAtPath_nil (g : XTree → XTree) (t : XTree) :
    updateAtPath g t [] = g t := by
  simp [updateAtPath]

theorem updateAtPath_cons {cs : List XTree} {n : Nat} {c : XTree}
    (g : XTree → XTree) (i : Nat) (tg : String) (a : List (String × String))
    (x tl : Option String) (q : List Nat) (hc : cs.get? n = some c) :
    updateAtPath g (.node i tg a x tl cs) (n :: q) =
      .node i tg a x tl (cs.set n (updateAtPath g c q)) := by
  rw [updateAtPath]
  simp only [hc]

theorem chunkNode_node (a b i : Nat) (tg : String) (at0 : List (String × String))
    (x tl : Option String) (cs : List XTree) :
    chunkNode a b (.node i tg at0 x tl cs) = .node i tg [] none none ((cs.drop a).take b) := rfl

theorem rootId_mem (t : XTree) : rootIdOf t ∈ idsOf t := by
  cases t with
  | node i tg a x tl cs => rw [idsOf_node]; exact List.mem_cons_self _ _

theorem subtree_ids_subset :
    ∀ (p : List Nat) (t s : XTree), subtreeAtPath t p = some s →
      ∀ m ∈ idsOf s, m ∈ idsOf t := by
  intro p
  induction p with
  | nil => intro t s hs; rw [subtreeAtPath_nil] at hs; cases hs; exact fun m hm => hm
  | cons n q ih =>
    intro t s hs
    cases t with
    | node i tg a x tl cs =>
      obtain ⟨c, hc, hcq⟩ := subtreeAtPath_cons_elim hs
      intro m hm
      rw [idsOf_node]
      exact List.mem_cons_of_mem _
        (ids_sub_of_mem (List.get?_mem hc) m (ih c s hcq m hm))

theorem nodup_ids_of_mem {ts : List XTree} (hnd : (idsOfList ts).Nodup) :
    ∀ t ∈ ts, (idsOf t).Nodup := by
  induction ts with
  | nil => intro t ht; cases ht
  | cons u us ih =>
    rw [idsOfList_cons, List.nodup_append] at hnd
    intro t ht
    rcases List.mem_cons.mp ht with rfl | ht2
    · exact hnd.1
    · exact ih hnd.2.1 t ht2

theorem readList_set_at :
    ∀ (l : List Nat) (ts : List XTree) (n : Nat) (cn u : XTree) (f : Nat)
      (h H : Heap) (e : Nat),
      readList f h l = some ts → (idsOfList ts).Nodup →
      ts.get? n = some cn → e ∈ idsOf cn →
      (∀ m ∈ idsOfList ts, m ≠ e → H.get m = h.get m) →
      (∀ c, l.get? n = some c → readTree f H c = some u) →
      readList f H l = some (ts.set n u) := by
  intro l
  induction l with
  | nil =>
    intro ts n cn u f h H e hl _ hget _ _ _
    rw [readList_nil] at hl
    cases hl
    simp at hget
  | cons c rest ih =>
    intro ts n cn u f h H e hl hnd hget he hfr hu
    obtain ⟨t, ts1, htc, htr, rfl⟩ := readList_cons_elim hl
    rw [idsOfList_cons, List.nodup_append] at hnd
    cases n with
    | zero =>
      simp only [List.get?] at hget
      cases hget
      have hnotin : e ∉ idsOfList ts1 := fun hmem => hnd.2.2 he hmem
      have htail : readList f H rest = some ts1 := by
        refine readList_frame htr ?_
        intro m hm
        refine hfr m ?_ ?_
        · rw [idsOfList_cons]; exact List.mem_append_right _ hm
        · intro heq; exact hnotin (heq ▸ hm)
      have hhead : readTree f H c = some u := hu c rfl
      simp only [List.set]
      simp only [readList_cons, hhead, htail]
    | succ n =>
      simp only [List.get?] at hget
      have hein : e ∈ idsOfList ts1 :=
        ids_sub_of_mem (List.get?_mem hget) e he
      have hhead : readTree f H c = some t := by
        refine readTree_frame htc ?_
        intro m hm
        refine hfr m ?_ ?_
        · rw [idsOfList_cons]; exact List.mem_append_left _ hm
        · intro heq; rw [heq] at hm; exact hnd.2.2 hm hein
      have htail : readList f H rest = some (ts1.set n u) := by
        refine ih ts1 n cn u f h H e htr hnd.2.1 hget he ?_ ?_
        · intro m hm hme
          refine hfr m ?_ hme
          rw [idsOfList_cons]; exact List.mem_append_right _ hm
        · intro c2 hc2; exact hu c2 hc2
      simp only [List.set]
      simp only [readList_cons, hhead, htail]

theorem mem_idsOfList {m : Nat} :
    ∀ {ts : List XTree}, m ∈ idsOfList ts ↔ ∃ t ∈ ts, m ∈ idsOf t := by
  intro ts
  induction ts with
  | nil => rw [idsOfList_nil]; simp
  | cons u us ih =>
    rw [idsOfList_cons]
    constructor
    · intro hm
      rcases List.mem_append.mp hm with hm1 | hm2
      · exact ⟨u, List.mem_cons_self _ _, hm1⟩
      · obtain ⟨t, htm, hmm⟩ := ih.mp hm2
        exact ⟨t, List.mem_cons_of_mem _ htm, hmm⟩
    · rintro ⟨t, htm, hmm⟩
      rcases List.mem_cons.mp htm with rfl | htm2
      · exact List.mem_append_left _ hmm
      · exact List.mem_append_right _ (ih.mpr ⟨t, htm2, hmm⟩)

theorem idsOfList_slice_sub {ts : List XTree} (sa sb : Nat) :
    ∀ m ∈ idsOfList ((ts.drop sa).take sb), m ∈ idsOfList ts := by
  intro m hm
  obtain ⟨t, htm, hmm⟩ := mem_idsOfList.mp hm
  exact mem_idsOfList.mpr ⟨t, List.drop_subset sa ts (List.take_subset _ _ htm), hmm⟩

theorem read_set_path :
    ∀ (p : List Nat) (f : Nat) (h H : Heap) (i : Nat) (t : XTree) (e : Nat)
      (tg : String) (a0 : List (String × String)) (x0 tl0 : Option String)
      (cs0 : List XTree) (sa sb : Nat),
      readTree f h i = some t → (idsOf t).Nodup →
      subtreeAtPath t p = some (.node e tg a0 x0 tl0 cs0) →
      (∀ m ∈ idsOf t, m ≠ e → H.get m = h.get m) →
      H.get e = some ⟨tg, [], none, none, ((cs0.map rootIdOf).drop sa).take sb⟩ →
      readTree f H i = some (updateAtPath (chunkNode sa sb) t p) := by
  intro p
  induction p with
  | nil =>
    intro f h H i t e tg a0 x0 tl0 cs0 sa sb ht hnd hs hfr hHe
    rw [subtreeAtPath_nil] at hs
    cases hs
    cases f with
    | zero => rw [readTree_zero] at ht; exact Option.noConfusion ht
    | succ f1 =>
      obtain ⟨nd, ts, hg, hl, hteq⟩ := readTree_succ_elim ht
      injection hteq with hie htg ha hx htl hts
      subst hie htg ha hx htl hts
      have hroots : cs0.map rootIdOf = nd.children := readList_roots hl
      have hslice : readList f1 h ((nd.children.drop sa).take sb) =
          some ((cs0.drop sa).take sb) :=
        readList_take (readList_drop hl sa) sb
      rw [idsOf_node, List.nodup_cons] at hnd
      have hsliceH : readList f1 H ((nd.children.drop sa).take sb) =
          some ((cs0.drop sa).take sb) := by
        refine readList_frame hslice ?_
        intro m hm
        have hmts : m ∈ idsOfList cs0 := idsOfList_slice_sub sa sb m hm
        refine hfr m ?_ ?_
        · rw [idsOf_node]; exact List.mem_cons_of_mem _ hmts
        · intro heq; rw [heq] at hmts; exact hnd.1 hmts
      have hids : ((cs0.map rootIdOf).drop sa).take sb = (nd.children.drop sa).take sb := by
        rw [hroots]
      rw [readTree_succ]
      rw [hids] at hHe
      simp only [hHe, hsliceH, updateAtPath_nil, chunkNode_node]
  | cons n q ih =>
    intro f h H i t e tg a0 x0 tl0 cs0 sa sb ht hnd hs hfr hHe
    cases t with
    | node i1 tg1 a1 x1 tl1 cs =>
      obtain ⟨c, hc, hcq⟩ := subtreeAtPath_cons_elim hs
      cases f with
      | zero => rw [readTree_zero] at ht; exact Option.noConfusion ht
      | succ f1 =>
        obtain ⟨nd, ts1, hg, hl, hteq⟩ := readTree_succ_elim ht
        injection hteq with hie htg ha hx htl hts
        subst hie htg ha hx htl hts
        rw [idsOf_node, List.nodup_cons] at hnd
        have hec : e ∈ idsOf c :=
          subtree_ids_subset q c _ hcq e (rootId_mem (.node e tg a0 x0 tl0 cs0))
        have hecs : e ∈ idsOfList cs := ids_sub_of_mem (List.get?_mem hc) e hec
        have hine : i1 ≠ e := fun heq => hnd.1 (by rw [heq]; exact hecs)
        have hHi : H.get i1 = some nd := by
          rw [hfr i1 (by rw [idsOf_node]; exact List.mem_cons_self _ _) hine]
          exact hg
        have hu : ∀ c2, nd.children.get? n = some c2 →
            readTree f1 H c2 = some (updateAtPath (chunkNode sa sb) c q) := by
          intro c2 hc2
          obtain ⟨t2, hts2, hrt2⟩ := readList_get hl n c2 hc2
          rw [hc] at hts2
          cases hts2
          refine ih f1 h H c2 c e tg a0 x0 tl0 cs0 sa sb hrt2
            (nodup_ids_of_mem hnd.2 c (List.get?_mem hc)) hcq ?_ hHe
          intro m hm hme
          refine hfr m ?_ hme
          rw [idsOf_node]
          exact List.mem_cons_of_mem _ (ids_sub_of_mem (List.get?_mem hc) m hm)
        have hlistH : readList f1 H nd.children =
            some (cs.set n (updateAtPath (chunkNode sa sb) c q)) := by
          refine readList_set_at nd.children cs n c _ f1 h H e hl hnd.2 hc hec ?_ hu
          intro m hm hme
          refine hfr m ?_ hme
          rw [idsOf_node]
          exact List.mem_cons_of_mem _ hm
        rw [updateAtPath_cons _ i1 nd.tag nd.attrib nd.text nd.tail q hc]
        rw [readTree_succ]
        simp only [hHi, hlistH]

theorem elemClear_set {h : Heap} {e : Nat} {nd : Node} (hg : h.get e = some nd) :
    elemClear h e = h.set e ⟨nd.tag, [], none, none, []⟩ := by
  simp only [elemClear, hg]

theorem appendAll_nil (e : Nat) (h : Heap) : appendAll e [] h = h := rfl

theorem appendAll_cons (e c : Nat) (chunk : List Nat) (h : Heap) :
    appendAll e (c :: chunk) h = appendAll e chunk (elemAppend h e c) := rfl

theorem appendAll_set (e : Nat) (tg : String) (A : List (String × String))
    (X T : Option String) :
    ∀ (chunk acc : List Nat) (h : Heap),
      appendAll e chunk (h.set e ⟨tg, A, X, T, acc⟩) =
        h.set e ⟨tg, A, X, T, acc ++ chunk⟩ := by
  intro chunk
  induction chunk with
  | nil => intro acc h; rw [appendAll_nil, List.append_nil]
  | cons c rest ih =>
    intro acc h
    rw [appendAll_cons]
    have happ : elemAppend (h.set e ⟨tg, A, X, T, acc⟩) e c =
        h.set e ⟨tg, A, X, T, acc ++ [c]⟩ := by
      have hge : (h.set e ⟨tg, A, X, T, acc⟩).get e = some ⟨tg, A, X, T, acc⟩ := by
        rw [Heap.get_set, if_pos rfl]
      simp only [elemAppend, hge, Heap.set_set]
    rw [happ, ih (acc ++ [c]) h, List.append_assoc]
    rfl

theorem clear_appends {h : Heap} {e : Nat} {nd : Node} (chunk : List Nat)
    (hg : h.get e = some nd) :
    appendAll e chunk (elemClear h e) = h.set e ⟨nd.tag, [], none, none, chunk⟩ := by
  rw [elemClear_set hg, appendAll_set, List.nil_append]

theorem heapBounded_set {h : Heap} {e : Nat} {nd : Node} (hb : heapBounded h)
    (he : e < h.next) : heapBounded (h.set e nd) := by
  intro m hm
  rw [Heap.next_set] at hm
  rw [Heap.get_set, if_neg (by omega)]
  exact hb m hm

theorem splitLoop_nil (f root e : Nat) (dm : Bool) (h : Heap) :
    splitLoop f root e dm [] h = (.ok [], h, []) := by
  rw [splitLoop]

theorem splitLoop_cons (f root e : Nat) (dm : Bool) (h h3 Hf : Heap) (x : Nat)
    (chunk : List Nat) (rest : List (List Nat)) (res : Except Err (List Nat))
    (lg2 : List Log)
    (hcopy : copyNode f (appendAll e chunk (elemClear h e)) root = some (h3, x))
    (hrest : splitLoop f root e dm rest h3 = (res, Hf, lg2)) :
    splitLoop f root e dm (chunk :: rest) h =
      (res.map (fun xs => x :: xs), Hf,
        (if dm then
          [Log.info (toString (getchildren (appendAll e chunk (elemClear h e)) e).length ++
            " records in element.")]
         else []) ++ lg2) := by
  rw [splitLoop]
  simp only [hcopy, hrest]

theorem splitLoop_spec
    (F : Nat) (h0 : Heap) (root : Nat) (t0 : XTree) (p : List Nat) (e : Nat)
    (tg : String) (a0 : List (String × String)) (x0 tl0 : Option String)
    (cs0 : List XTree) (K : Nat) (dm : Bool)
    (ht0 : readTree F h0 root = some t0) (hnd0 : (idsOf t0).Nodup)
    (hb0 : heapBounded h0)
    (hsub : subtreeAtPath t0 p = some (.node e tg a0 x0 tl0 cs0)) :
    ∀ (M : Nat) (a : Nat) (h : Heap),
      (∀ m ∈ idsOf t0, m ≠ e → h.get m = h0.get m) →
      h0.next ≤ h.next → heapBounded h →
      (∃ A X T C, h.get e = some ⟨tg, A, X, T, C⟩) →
      ∃ out Hf lg Ts,
        splitLoop F root e dm
          ((List.range M).map (fun j => pySlice (cs0.map rootIdOf) (a + j * K) K)) h
          = (.ok out, Hf, lg) ∧
        out.length = M ∧
        (∀ m, m < h.next → m ≠ e → Hf.get m = h.get m) ∧
        h.next ≤ Hf.next ∧ heapBounded Hf ∧
        readList F Hf out = some Ts ∧
        (∀ j Tj, Ts.get? j = some Tj →
          strip Tj = strip (updateAtPath (chunkNode (a + j * K) K) t0 p)) ∧
        (∀ m ∈ idsOfList Ts, h.next ≤ m ∧ m < Hf.next) ∧
        (idsOfList Ts).Nodup ∧
        (M = 0 → Hf = h) ∧
        (0 < M → Hf.get e = some ⟨tg, [], none, none,
          pySlice (cs0.map rootIdOf) (a + (M - 1) * K) K⟩) := by
  have hidslt : ∀ m ∈ idsOf t0, m < h0.next := readTree_ids_lt hb0 ht0
  have het0 : e ∈ idsOf t0 :=
    subtree_ids_subset p t0 _ hsub e (rootId_mem (.node e tg a0 x0 tl0 cs0))
  have helt : e < h0.next := hidslt e het0
  intro M
  induction M with
  | zero =>
    intro a h hfr hn hb _
    refine ⟨[], h, [], [], ?_, rfl, fun m _ _ => rfl, Nat.le_refl _, hb,
      readList_nil _ _, ?_, ?_, ?_, fun _ => rfl, ?_⟩
    · simp only [List.range_zero, List.map_nil]
      exact splitLoop_nil F root e dm h
    · intro j Tj hj; simp at hj
    · intro m hm; rw [idsOfList_nil] at hm; cases hm
    · rw [idsOfList_nil]; exact List.nodup_nil
    · intro hM; omega
  | succ M ih =>
    intro a h hfr hn hb hget
    obtain ⟨A, X, T, C, hge⟩ := hget
    -- the head chunk and the mutated heap of this iteration
    have hchunks : (List.range (M + 1)).map
          (fun j => pySlice (cs0.map rootIdOf) (a + j * K) K) =
        pySlice (cs0.map rootIdOf) a K ::
          (List.range M).map (fun j => pySlice (cs0.map rootIdOf) ((a + K) + j * K) K) := by
      rw [List.range_succ_eq_map, List.map_cons, List.map_map]
      have h1 : a + 0 * K = a := by ring
      rw [h1]
      have h2 : ∀ j : Nat,
          ((fun j => pySlice (cs0.map rootIdOf) (a + j * K) K) ∘ Nat.succ) j =
            pySlice (cs0.map rootIdOf) ((a + K) + j * K) K := by
        intro j
        simp only [Function.comp, Nat.succ_eq_add_one]
        ring_nf
      exact congrArg (fun l => pySlice (cs0.map rootIdOf) a K :: l)
        (List.map_congr_left fun j _ => h2 j)
    set newnd : Node := ⟨tg, [], none, none, pySlice (cs0.map rootIdOf) a K⟩ with hnewnd
    have hmut : appendAll e (pySlice (cs0.map rootIdOf) a K) (elemClear h e) =
        h.set e newnd := by
      rw [clear_appends _ hge]
    have hfr2 : ∀ m ∈ idsOf t0, m ≠ e → (h.set e newnd).get m = h0.get m := by
      intro m hm hme
      rw [Heap.get_set, if_neg hme]
      exact hfr m hm hme
    have hb2 : heapBounded (h.set e newnd) := heapBounded_set hb (by omega)
    have hread2 : readTree F (h.set e newnd) root =
        some (updateAtPath (chunkNode a K) t0 p) := by
      refine read_set_path p F h0 (h.set e newnd) root t0 e tg a0 x0 tl0 cs0 a K
        ht0 hnd0 hsub hfr2 ?_
      rw [Heap.get_set, if_pos rfl, hnewnd]
      rfl
    obtain ⟨h3, x, Tx, hcn, hn3, hb3, hfr3, hrt3, hst3, hid3, hnd3x⟩ :=
      (copy_spec F).1 (h.set e newnd) root _ hb2 hread2
    have hnext2 : (h.set e newnd).next = h.next := rfl
    -- the tail is handled by the induction hypothesis starting from h3
    have hfr3t0 : ∀ m ∈ idsOf t0, m ≠ e → h3.get m = h0.get m := by
      intro m hm hme
      rw [hfr3 m (by rw [hnext2]; exact Nat.lt_of_lt_of_le (hidslt m hm) hn)]
      exact hfr2 m hm hme
    have hge3 : h3.get e = some newnd := by
      rw [hfr3 e (by rw [hnext2]; omega), Heap.get_set, if_pos rfl]
    obtain ⟨out2, Hf, lg2, Ts2, hloop2, hlen2, hfrf, hnf, hbf, hrdf, hstf, hidf, hndf,
        hM0, hMpos⟩ :=
      ih (a + K) h3 hfr3t0 (by omega) hb3 ⟨[], none, none, _, hge3⟩
    have hstep : splitLoop F root e dm
        ((List.range (M + 1)).map (fun j => pySlice (cs0.map rootIdOf) (a + j * K) K)) h =
        (.ok (x :: out2), Hf,
          (if dm then
            [Log.info (toString (getchildren
              (appendAll e (pySlice (cs0.map rootIdOf) a K) (elemClear h e)) e).length ++
              " records in element.")]
           else []) ++ lg2) := by
      rw [hchunks]
      rw [splitLoop_cons F root e dm h h3 Hf x _ _ (.ok out2) lg2 (by rw [hmut]; exact hcn)
        hloop2]
      rfl
    refine ⟨x :: out2, Hf, _, Tx :: Ts2, hstep, by simp [hlen2], ?_, by omega, hbf, ?_, ?_,
      ?_, ?_, by omega, ?_⟩
    · intro m hm hme
      rw [hfrf m (by omega) hme, hfr3 m (by rw [hnext2]; omega), Heap.get_set, if_neg hme]
    · have hTxf : readTree F Hf x = some Tx := by
        refine readTree_frame hrt3 ?_
        intro m hm
        refine hfrf m (hid3 m hm).2 ?_
        have := (hid3 m hm).1
        rw [hnext2] at this
        omega
      simp only [readList_cons, hTxf, hrdf]
    · intro j Tj hj
      cases j with
      | zero =>
        simp only [List.get?] at hj
        cases hj
        have hz : a + 0 * K = a := by omega
        rw [hz]
        exact hst3
      | succ j =>
        simp only [List.get?] at hj
        have hjj : a + (j + 1) * K = (a + K) + j * K := by ring
        rw [hjj]
        exact hstf j Tj hj
    · intro m hm
      rw [idsOfList_cons] at hm
      rcases List.mem_append.mp hm with hm1 | hm2
      · have := hid3 m hm1
        rw [hnext2] at this
        omega
      · have := hidf m hm2
        omega
    · rw [idsOfList_cons, List.nodup_append]
      refine ⟨hnd3x, hndf, ?_⟩
      intro m hm1 hm2
      have h1 := hid3 m hm1
      have h2 := hidf m hm2
      rw [hnext2] at h1
      omega
    · intro _
      cases Nat.eq_zero_or_pos M with
      | inl hM =>
        subst hM
        rw [hM0 rfl, hge3, hnewnd]
        have hz : a + (1 - 1) * K = a := by omega
        rw [hz]
      | inr hM =>
        rw [hMpos hM]
        have hz : (a + K) + (M - 1) * K = a + (M + 1 - 1) * K := by
          cases M with
          | zero => omega
          | succ M2 => simp [Nat.succ_sub_one]; ring
        rw [hz]

theorem read_at_subtree :
    ∀ (q : List Nat) (f : Nat) (h : Heap) (i : Nat) (t s : XTree),
      readTree f h i = some t → subtreeAtPath t q = some s →
      ∃ f2, f2 ≤ f ∧ readTree f2 h (rootIdOf s) = some s := by
  intro q
  induction q with
  | nil =>
    intro f h i t s ht hs
    rw [subtreeAtPath_nil] at hs
    cases hs
    exact ⟨f, Nat.le_refl _, by rw [read_rootId ht]; exact ht⟩
  | cons n q ih =>
    intro f h i t s ht hs
    cases t with
    | node i1 tg1 a1 x1 tl1 cs =>
      obtain ⟨c, hc, hcq⟩ := subtreeAtPath_cons_elim hs
      cases f with
      | zero => rw [readTree_zero] at ht; exact Option.noConfusion ht
      | succ f1 =>
        obtain ⟨nd, ts1, hg, hl, hteq⟩ := readTree_succ_elim ht
        injection hteq with hie htg ha hx htl hts
        subst hie htg ha hx htl hts
        have hlen : n < nd.children.length := by
          have h1 : n < cs.length := by
            by_contra hcon
            rw [List.get?_eq_none.mpr (Nat.le_of_not_lt hcon)] at hc
            exact Option.noConfusion hc
          rw [readList_length hl] at h1
          exact h1
        obtain ⟨c2, hc2⟩ : ∃ c2, nd.children.get? n = some c2 :=
          ⟨_, List.get?_eq_get hlen⟩
        obtain ⟨t2, hts2, hrt2⟩ := readList_get hl n c2 hc2
        rw [hc] at hts2
        cases hts2
        obtain ⟨f2, hle, hread⟩ := ih f1 h c2 c s hrt2 hcq
        exact ⟨f2, by omega, hread⟩

theorem pyChunk_eq_rangeMap (records : List α) (K : Nat) :
    pyChunk records K =
      (List.range ((records.length + K - 1) / K)).map
        (fun j => pySlice records (0 + j * K) K) := by
  rw [pyChunk, pyRangeStarts, List.map_map]
  refine List.map_congr_left ?_
  intro j _
  simp only [Function.comp]
  rw [Nat.zero_add]

theorem split_spec
    (F : Nat) (h0 : Heap) (root : Nat) (t0 : XTree) (p : List Nat) (e : Nat)
    (tg : String) (a0 : List (String × String)) (x0 tl0 : Option String)
    (cs0 : List XTree) (K : Nat) (dm : Bool)
    (ht0 : readTree F h0 root = some t0) (hnd0 : (idsOf t0).Nodup)
    (hb0 : heapBounded h0)
    (hsub : subtreeAtPath t0 p = some (.node e tg a0 x0 tl0 cs0))
    (hK : 0 < K) :
    ∃ out Hf lg Ts,
      split_records F h0 root (.element e) (K : Int) dm = (.ok out, Hf, lg) ∧
      out.length = (cs0.length + K - 1) / K ∧
      readList F Hf out = some Ts ∧
      (∀ j Tj, Ts.get? j = some Tj →
        strip Tj = strip (updateAtPath (chunkNode (j * K) K) t0 p)) ∧
      (∀ m ∈ idsOfList Ts, h0.next ≤ m ∧ m < Hf.next) ∧
      (idsOfList Ts).Nodup ∧
      (∀ m, m < h0.next → m ≠ e → Hf.get m = h0.get m) ∧
      h0.next ≤ Hf.next ∧ heapBounded Hf ∧
      (cs0.length = 0 → Hf = h0 ∧ out = []) ∧
      (0 < cs0.length →
        Hf.get e = some ⟨tg, [], none, none,
          pySlice (cs0.map rootIdOf) (((cs0.length + K - 1) / K - 1) * K) K⟩ ∧
        readTree F Hf root = some (updateAtPath
          (chunkNode (((cs0.length + K - 1) / K - 1) * K) K) t0 p)) := by
  have hidslt : ∀ m ∈ idsOf t0, m < h0.next := readTree_ids_lt hb0 ht0
  have het0 : e ∈ idsOf t0 :=
    subtree_ids_subset p t0 _ hsub e (rootId_mem (.node e tg a0 x0 tl0 cs0))
  -- characterize the live node at e in h0
  obtain ⟨f2, hf2le, hread_e⟩ := read_at_subtree p F h0 root t0 _ ht0 hsub
  have hroote : rootIdOf (XTree.node e tg a0 x0 tl0 cs0) = e := rfl
  rw [hroote] at hread_e
  obtain ⟨f3, hread_e3⟩ : ∃ f3, readTree (f3 + 1) h0 e =
      some (XTree.node e tg a0 x0 tl0 cs0) := by
    cases f2 with
    | zero => rw [readTree_zero] at hread_e; exact Option.noConfusion hread_e
    | succ f3 => exact ⟨f3, hread_e⟩
  obtain ⟨nd, ts, hget, hlch, hndeq⟩ := readTree_succ_elim hread_e3
  injection hndeq with hie htg ha hx htl hts
  subst htg ha hx htl hts
  have hrecords : getchildren h0 e = cs0.map rootIdOf := by
    rw [getchildren, hget]
    simp only [Option.getD_some]
    exact (readList_roots hlch).symm
  -- run the loop spec from the initial heap
  have hM := splitLoop_spec F h0 root t0 p e nd.tag nd.attrib nd.text nd.tail cs0 K dm ht0
    hnd0 hb0 hsub
    ((cs0.length + K - 1) / K) 0 h0 (fun m _ _ => rfl) (Nat.le_refl _) hb0
    ⟨nd.attrib, nd.text, nd.tail, nd.children, by rw [hget]⟩
  obtain ⟨out, Hf, lg, Ts, hloop, hlen, hfrf, hnf, hbf, hrdf, hstf, hidf, hndf, hM0,
    hMpos⟩ := hM
  have hchunked : pyChunked (getchildren h0 e) (K : Int) =
      .ok (pyChunk (getchildren h0 e) K) := by
    rw [pyChunked, if_neg (by omega), if_neg (by omega)]
    have htn : ((K : Int)).toNat = K := by omega
    rw [htn]
  have hchunkarg : pyChunk (getchildren h0 e) K =
      (List.range ((cs0.length + K - 1) / K)).map
        (fun j => pySlice (cs0.map rootIdOf) (0 + j * K) K) := by
    rw [pyChunk_eq_rangeMap, hrecords, List.length_map]
  have hsplit : split_records F h0 root (.element e) (K : Int) dm =
      (.ok out, Hf,
        (if dm then
          [Log.info (toString (getchildren h0 e).length ++ " records found in element.")]
         else []) ++ lg) := by
    rw [split_records]
    simp only [hchunked, hchunkarg, hloop]
  refine ⟨out, Hf, _, Ts, hsplit, hlen, hrdf, ?_, hidf, hndf, hfrf, hnf, hbf, ?_, ?_⟩
  · intro j Tj hj
    have := hstf j Tj hj
    rw [Nat.zero_add] at this
    exact this
  · intro hzero
    have hMz : (cs0.length + K - 1) / K = 0 := by
      rw [hzero]
      exact Nat.div_eq_of_lt (by omega)
    rw [hMz] at hM0 hlen
    exact ⟨hM0 rfl, List.eq_nil_of_length_eq_zero (by rw [hlen])⟩
  · intro hpos
    have hMpos2 : 0 < (cs0.length + K - 1) / K := Nat.div_pos (by omega) hK
    have hHfe := hMpos hMpos2
    rw [Nat.zero_add] at hHfe
    refine ⟨hHfe, ?_⟩
    refine read_set_path p F h0 Hf root t0 e nd.tag nd.attrib nd.text nd.tail cs0
      (((cs0.length + K - 1) / K - 1) * K) K ht0 hnd0 hsub ?_ hHfe
    intro m hm hme
    exact hfrf m (hidslt m hm) hme

theorem ceil_div_succ (K n : Nat) (hK : 0 < K) (hn : 0 < n) :
    (n + K - 1) / K = ((n - K) + K - 1) / K + 1 := by
  have h1 : n + K - 1 = (n - 1) + K := by omega
  rw [h1, Nat.add_div_right _ hK]
  rcases le_or_lt n K with hle | hlt
  · have h2 : n - K = 0 := by omega
    rw [h2]
    have h3 : (n - 1) / K = 0 := Nat.div_eq_of_lt (by omega)
    have h4 : (0 + K - 1) / K = 0 := Nat.div_eq_of_lt (by omega)
    rw [h3, h4]
  · have h2 : (n - K) + K - 1 = n - 1 := by omega
    rw [h2]

theorem slice_join (K : Nat) (hK : 0 < K) :
    ∀ (l : List α),
      ((List.range ((l.length + K - 1) / K)).map
        (fun j => (l.drop (j * K)).take K)).flatten = l := by
  suffices H : ∀ (n : Nat) (l : List α), l.length = n →
      ((List.range ((l.length + K - 1) / K)).map
        (fun j => (l.drop (j * K)).take K)).flatten = l by
    intro l
    exact H l.length l rfl
  intro n
  induction n using Nat.strong_induction_on with
  | _ n ih =>
    intro l hl
    cases l with
    | nil =>
      have hM : ((List.nil : List α).length + K - 1) / K = 0 :=
        Nat.div_eq_of_lt (by simp; omega)
      rw [hM]
      simp
    | cons x l2 =>
      have hpos : 0 < (x :: l2).length := by simp
      rw [ceil_div_succ K _ hK hpos]
      have hdroplen : ((x :: l2).drop K).length = (x :: l2).length - K := by
        rw [List.length_drop]
      rw [List.range_succ_eq_map, List.map_cons, List.map_map, List.flatten_cons]
      have hhead : ((x :: l2).drop (0 * K)).take K = (x :: l2).take K := by
        rw [Nat.zero_mul, List.drop_zero]
      have htail : ∀ j : Nat,
          ((fun j => ((x :: l2).drop (j * K)).take K) ∘ Nat.succ) j =
            ((((x :: l2).drop K).drop (j * K)).take K) := by
        intro j
        simp only [Function.comp, Nat.succ_eq_add_one]
        rw [List.drop_drop]
        ring_nf
      rw [hhead]
      rw [List.map_congr_left fun j _ => htail j]
      have hih := ih (n - K) (by omega) ((x :: l2).drop K) (by rw [hdroplen, hl])
      rw [hdroplen] at hih
      rw [hih, List.take_append_drop]

theorem slice_len_mid (K : Nat) (hK : 0 < K) (l : List α) (j : Nat)
    (hj : j + 1 < (l.length + K - 1) / K) :
    ((l.drop (j * K)).take K).length = K := by
  have hMK : ((l.length + K - 1) / K) * K ≤ l.length + K - 1 :=
    Nat.div_mul_le_self _ _
  have hj2 : (j + 2) * K ≤ ((l.length + K - 1) / K) * K :=
    Nat.mul_le_mul_right _ (by omega)
  have hexp : (j + 2) * K = j * K + 2 * K := by ring
  rw [List.length_take, List.length_drop]
  have hge : j * K + K ≤ l.length := by omega
  omega

theorem last_len_core (K n : Nat) (hK : 0 < K) (hn : 0 < n) :
    min K (n - ((n - 1) / K) * K) = if n % K = 0 then K else n % K := by
  obtain ⟨q, r, hqr, hrK⟩ : ∃ q r, K * q + r = n - 1 ∧ r < K :=
    ⟨(n - 1) / K, (n - 1) % K, Nat.div_add_mod _ _, Nat.mod_lt _ hK⟩
  have hdiv : (n - 1) / K = q := by
    rw [← hqr, Nat.mul_add_div hK, Nat.div_eq_of_lt hrK, Nat.add_zero]
  rw [hdiv]
  have hneq : K * q + (r + 1) = n := by omega
  have hmod : n % K = (r + 1) % K := by rw [← hneq, Nat.mul_add_mod]
  have hcomm : q * K = K * q := Nat.mul_comm _ _
  by_cases hrk1 : r + 1 = K
  · rw [if_pos (by rw [hmod, hrk1, Nat.mod_self])]
    have hv : n - q * K = K := by rw [hcomm]; omega
    rw [hv, Nat.min_self]
  · rw [if_neg (by rw [hmod, Nat.mod_eq_of_lt (by omega)]; omega)]
    rw [hmod, Nat.mod_eq_of_lt (by omega)]
    have hv : n - q * K = r + 1 := by rw [hcomm]; omega
    rw [hv]
    exact Nat.min_eq_right (by omega)

theorem slice_len_last (K : Nat) (hK : 0 < K) (l : List α) (hn : 0 < l.length) :
    ((l.drop ((((l.length + K - 1) / K) - 1) * K)).take K).length =
      if l.length % K = 0 then K else l.length % K := by
  have hM : (l.length + K - 1) / K = (l.length - 1) / K + 1 := by
    rw [show l.length + K - 1 = (l.length - 1) + K by omega, Nat.add_div_right _ hK]
  rw [List.length_take, List.length_drop, hM, Nat.add_sub_cancel]
  exact last_len_core K l.length hK hn

theorem subtree_update (g : XTree → XTree) :
    ∀ (p : List Nat) (t s : XTree), subtreeAtPath t p = some s →
      subtreeAtPath (updateAtPath g t p) p = some (g s) := by
  intro p
  induction p with
  | nil =>
    intro t s hs
    rw [subtreeAtPath_nil] at hs
    cases hs
    rw [updateAtPath_nil, subtreeAtPath_nil]
  | cons n q ih =>
    intro t s hs
    cases t with
    | node i tg a x tl cs =>
      obtain ⟨c, hc, hcq⟩ := subtreeAtPath_cons_elim hs
      rw [updateAtPath_cons g i tg a x tl q hc]
      have hlt : n < cs.length := by
        by_contra hcon
        rw [List.get?_eq_none.mpr (Nat.le_of_not_lt hcon)] at hc
        exact Option.noConfusion hc
      have hget : (cs.set n (updateAtPath g c q)).get? n =
          some (updateAtPath g c q) := by
        rw [List.get?_set_eq, hc]
        rfl
      rw [subtreeAtPath]
      simp only [hget]
      exact ih c s hcq

theorem nodup_idsOfList_disjoint :
    ∀ (ts : List XTree) (i j : Nat) (Ti Tj : XTree), (idsOfList ts).Nodup →
      i ≠ j → ts.get? i = some Ti → ts.get? j = some Tj →
      ∀ m, m ∈ idsOf Ti → m ∈ idsOf Tj → False := by
  intro ts
  induction ts with
  | nil => intro i j Ti Tj _ _ hi; simp at hi
  | cons u us ih =>
    intro i j Ti Tj hnd hij hi hj m hmi hmj
    rw [idsOfList_cons, List.nodup_append] at hnd
    cases i with
    | zero =>
      simp only [List.get?] at hi
      cases hi
      cases j with
      | zero => exact hij rfl
      | succ j =>
        simp only [List.get?] at hj
        exact hnd.2.2 hmi (ids_sub_of_mem (List.get?_mem hj) m hmj)
    | succ i =>
      simp only [List.get?] at hi
      cases j with
      | zero =>
        simp only [List.get?] at hj
        cases hj
        exact hnd.2.2 hmj (ids_sub_of_mem (List.get?_mem hi) m hmi)
      | succ j =>
        simp only [List.get?] at hj
        exact ih i j Ti Tj hnd.2.1 (fun hc => hij (by rw [hc])) hi hj m hmi hmj

theorem idsOfList_set_sub :
    ∀ (ts : List XTree) (n : Nat) (u : XTree) (m : Nat),
      m ∈ idsOfList (ts.set n u) → m ∈ idsOf u ∨ m ∈ idsOfList ts := by
  intro ts
  induction ts with
  | nil => intro n u m hm; simp [List.set] at hm; rw [idsOfList_nil] at hm; cases hm
  | cons v vs ih =>
    intro n u m hm
    cases n with
    | zero =>
      simp only [List.set] at hm
      rw [idsOfList_cons] at hm
      rcases List.mem_append.mp hm with hm1 | hm2
      · exact Or.inl hm1
      · exact Or.inr (by rw [idsOfList_cons]; exact List.mem_append_right _ hm2)
    | succ n =>
      simp only [List.set] at hm
      rw [idsOfList_cons] at hm
      rcases List.mem_append.mp hm with hm1 | hm2
      · exact Or.inr (by rw [idsOfList_cons]; exact List.mem_append_left _ hm1)
      · rcases ih n u m hm2 with hu | hts
        · exact Or.inl hu
        · exact Or.inr (by rw [idsOfList_cons]; exact List.mem_append_right _ hts)

theorem update_ids_sub (sa sb : Nat) :
    ∀ (p : List Nat) (t s : XTree), subtreeAtPath t p = some s →
      ∀ m ∈ idsOf (updateAtPath (chunkNode sa sb) t p), m ∈ idsOf t := by
  intro p
  induction p with
  | nil =>
    intro t s hs m hm
    rw [updateAtPath_nil] at hm
    cases t with
    | node i tg a x tl cs =>
      rw [chunkNode_node, idsOf_node] at hm
      rw [idsOf_node]
      rcases List.mem_cons.mp hm with rfl | hm2
      · exact List.mem_cons_self _ _
      · exact List.mem_cons_of_mem _ (idsOfList_slice_sub sa sb m hm2)
  | cons n q ih =>
    intro t s hs m hm
    cases t with
    | node i tg a x tl cs =>
      obtain ⟨c, hc, hcq⟩ := subtreeAtPath_cons_elim hs
      rw [updateAtPath_cons _ i tg a x tl q hc, idsOf_node] at hm
      rw [idsOf_node]
      rcases List.mem_cons.mp hm with rfl | hm2
      · exact List.mem_cons_self _ _
      · rcases idsOfList_set_sub cs n _ m hm2 with hu | hts
        · exact List.mem_cons_of_mem _
            (ids_sub_of_mem (List.get?_mem hc) m (ih c s hcq m hu))
        · exact List.mem_cons_of_mem _ hts

theorem findByTag_spec (h : Heap) (tag : String) :
    ∀ items : List Nat,
      (∃ x, findByTag h tag items = some x ∧
        ∃ pre post, items = pre ++ x :: post ∧ tagOfId h x = tag ∧
          ∀ y ∈ pre, tagOfId h y ≠ tag) ∨
      (findByTag h tag items = none ∧ ∀ y ∈ items, tagOfId h y ≠ tag) := by
  intro items
  induction items with
  | nil => exact Or.inr ⟨rfl, fun y hy => absurd hy (List.not_mem_nil y)⟩
  | cons c rest ih =>
    by_cases hc : tagOfId h c = tag
    · refine Or.inl ⟨c, ?_, [], rest, rfl, hc, fun y hy => absurd hy (List.not_mem_nil y)⟩
      simp [findByTag, hc]
    · rcases ih with ⟨x, hfind, pre, post, heq, htag, hpre⟩ | ⟨hfind, hnone⟩
      · refine Or.inl ⟨x, ?_, c :: pre, post, by rw [heq]; rfl, htag, ?_⟩
        · simp [findByTag, hc, hfind]
        · intro y hy
          rcases List.mem_cons.mp hy with rfl | hy2
          · exact hc
          · exact hpre y hy2
      · refine Or.inr ⟨?_, ?_⟩
        · simp [findByTag, hc, hfind]
        · intro y hy
          rcases List.mem_cons.mp hy with rfl | hy2
          · exact hc
          · exact hnone y hy2

theorem splitLoop_no_invalid (F root e : Nat) (dm : Bool) :
    ∀ (chunks : List (List Nat)) (h : Heap) (s : String),
      (splitLoop F root e dm chunks h).1 ≠ .error (.invalidInput s) := by
  intro chunks
  induction chunks with
  | nil => intro h s hcon; rw [splitLoop_nil] at hcon; exact Except.noConfusion hcon
  | cons chunk rest ih =>
    intro h s hcon
    rw [splitLoop] at hcon
    cases hcp : copyNode F (appendAll e chunk (elemClear h e)) root with
    | none => simp only [hcp] at hcon; cases hcon
    | some hx =>
      simp only [hcp] at hcon
      cases hrest : splitLoop F root e dm rest hx.1 with
      | mk res rest2 =>
        rw [hrest] at hcon
        simp only at hcon
        cases res with
        | error er =>
          simp only [Except.map] at hcon
          cases hcon
          exact ih hx.1 s (by rw [hrest])
        | ok out => simp only [Except.map] at hcon; exact Except.noConfusion hcon

theorem exHeap_bounded : heapBounded exHeap := by
  intro m hm
  show (if m = 0 then _ else if m = 1 then _ else if m = 2 then _
    else if m = 3 then _ else none) = none
  have hm4 : 4 ≤ m := hm
  rw [if_neg (by omega), if_neg (by omega), if_neg (by omega), if_neg (by omega)]

theorem exLeafHeap_bounded : heapBounded exLeafHeap := by
  intro m hm
  show (if m = 0 then _ else none) = none
  have hm1 : 1 ≤ m := hm
  rw [if_neg (by omega)]

theorem exHeap_read : readTree 2 exHeap 0 = some exTree := by
  have hg0 : exHeap.get 0 = some ⟨"root", [("a", "1")], some "t", none, [1, 2, 3]⟩ := rfl
  have hg1 : exHeap.get 1 = some ⟨"r1", [], none, none, []⟩ := rfl
  have hg2 : exHeap.get 2 = some ⟨"r2", [], none, none, []⟩ := rfl
  have hg3 : exHeap.get 3 = some ⟨"r3", [], none, none, []⟩ := rfl
  have hr1 : readTree 1 exHeap 1 = some (.node 1 "r1" [] none none []) := by
    rw [show (1 : Nat) = 0 + 1 from rfl, readTree_succ]
    simp only [hg1, readList_nil]
  have hr2 : readTree 1 exHeap 2 = some (.node 2 "r2" [] none none []) := by
    rw [show (1 : Nat) = 0 + 1 from rfl, readTree_succ]
    simp only [hg2, readList_nil]
  have hr3 : readTree 1 exHeap 3 = some (.node 3 "r3" [] none none []) := by
    rw [show (1 : Nat) = 0 + 1 from rfl, readTree_succ]
    simp only [hg3, readList_nil]
  have hrl : readList 1 exHeap [1, 2, 3] = some exKids := by
    rw [readList_cons]
    simp only [hr1]
    rw [readList_cons]
    simp only [hr2]
    rw [readList_cons]
    simp only [hr3, readList_nil]
    rfl
  rw [show (2 : Nat) = 1 + 1 from rfl, readTree_succ]
  simp only [hg0, hrl]
  rfl

theorem exTree_nodup : (idsOf exTree).Nodup := by
  rw [exTree, idsOf_node, exKids, idsOfList_cons, idsOfList_cons, idsOfList_cons,
    idsOf_node, idsOf_node, idsOf_node, idsOfList_nil]
  decide

theorem exTree_subtree : subtreeAtPath exTree [] =
    some (.node 0 "root" [("a", "1")] (some "t") none exKids) := by
  rw [subtreeAtPath_nil, exTree]

/-- C1: for an element with `N` children and chunk size `K > 0`,
`split_records` returns exactly `⌈N/K⌉` output documents (none when
`N = 0`), each output document is, content for content, the original
tree with the target's children replaced by the corresponding chunk
(a positional slice of the original children), and the chunks
concatenate, in order, to the original child sequence — no loss, no
reordering, no duplication. -/
theorem claim_C1
    (F : Nat) (h0 : Heap) (root : Nat) (t0 : XTree) (p : List Nat) (e : Nat)
    (tg : String) (a0 : List (String × String)) (x0 tl0 : Option String)
    (cs0 : List XTree) (K : Nat) (dm : Bool)
    (ht0 : readTree F h0 root = some t0) (hnd0 : (idsOf t0).Nodup)
    (hb0 : heapBounded h0)
    (hsub : subtreeAtPath t0 p = some (.node e tg a0 x0 tl0 cs0))
    (hK : 0 < K) :
    ∃ out Hf lg Ts,
      split_records F h0 root (.element e) (K : Int) dm = (.ok out, Hf, lg) ∧
      out.length = (cs0.length + K - 1) / K ∧
      (cs0.length = 0 → out = []) ∧
      readList F Hf out = some Ts ∧
      (∀ j Tj, Ts.get? j = some Tj →
        strip Tj = strip (updateAtPath (chunkNode (j * K) K) t0 p) ∧
        subtreeAtPath (updateAtPath (chunkNode (j * K) K) t0 p) p =
          some (.node e tg [] none none ((cs0.drop (j * K)).take K))) ∧
      ((List.range ((cs0.length + K - 1) / K)).map
        (fun j => (cs0.drop (j * K)).take K)).flatten = cs0 := by
  obtain ⟨out, Hf, lg, Ts, hspl, hlen, hrd, hstr, _, _, _, _, _, hzero, _⟩ :=
    split_spec F h0 root t0 p e tg a0 x0 tl0 cs0 K dm ht0 hnd0 hb0 hsub hK
  refine ⟨out, Hf, lg, Ts, hspl, hlen, fun hz => (hzero hz).2, hrd, ?_,
    slice_join K hK cs0⟩
  intro j Tj hj
  refine ⟨hstr j Tj hj, ?_⟩
  rw [subtree_update (chunkNode (j * K) K) p t0 _ hsub, chunkNode_node]

theorem claim_C1_witness :
    ∃ out Hf lg Ts,
      split_records 2 exHeap 0 (.element 0) ((2 : Nat) : Int) false = (.ok out, Hf, lg) ∧
      out.length = (exKids.length + 2 - 1) / 2 ∧
      (exKids.length = 0 → out = []) ∧
      readList 2 Hf out = some Ts ∧
      (∀ j Tj, Ts.get? j = some Tj →
        strip Tj = strip (updateAtPath (chunkNode (j * 2) 2) exTree []) ∧
        subtreeAtPath (updateAtPath (chunkNode (j * 2) 2) exTree []) [] =
          some (.node 0 "root" [] none none ((exKids.drop (j * 2)).take 2))) ∧
      ((List.range ((exKids.length + 2 - 1) / 2)).map
        (fun j => (exKids.drop (j * 2)).take 2)).flatten = exKids :=
  claim_C1 2 exHeap 0 exTree [] 0 "root" [("a", "1")] (some "t") none exKids 2 false
    exHeap_read exTree_nodup exHeap_bounded exTree_subtree (by decide)

/-- C2: for an element with `N > 0` children and chunk size `K > 0`,
every chunk except possibly the last has exactly `K` children, and the
last chunk has `N mod K` children (or `K` when `K` divides `N`); the
outputs of `split_records` carry exactly those chunks. -/
theorem claim_C2
    (F : Nat) (h0 : Heap) (root : Nat) (t0 : XTree) (p : List Nat) (e : Nat)
    (tg : String) (a0 : List (String × String)) (x0 tl0 : Option String)
    (cs0 : List XTree) (K : Nat) (dm : Bool)
    (ht0 : readTree F h0 root = some t0) (hnd0 : (idsOf t0).Nodup)
    (hb0 : heapBounded h0)
    (hsub : subtreeAtPath t0 p = some (.node e tg a0 x0 tl0 cs0))
    (hK : 0 < K) (hN : 0 < cs0.length) :
    ∃ out Hf lg Ts,
      split_records F h0 root (.element e) (K : Int) dm = (.ok out, Hf, lg) ∧
      out.length = (cs0.length + K - 1) / K ∧
      readList F Hf out = some Ts ∧
      (∀ j Tj, Ts.get? j = some Tj →
        strip Tj = strip (updateAtPath (chunkNode (j * K) K) t0 p) ∧
        subtreeAtPath (updateAtPath (chunkNode (j * K) K) t0 p) p =
          some (.node e tg [] none none ((cs0.drop (j * K)).take K))) ∧
      (∀ j, j + 1 < (cs0.length + K - 1) / K →
        ((cs0.drop (j * K)).take K).length = K) ∧
      ((cs0.drop (((cs0.length + K - 1) / K - 1) * K)).take K).length =
        (if cs0.length % K = 0 then K else cs0.length % K) := by
  obtain ⟨out, Hf, lg, Ts, hspl, hlen, hrd, hstr, _, _, _, _, _, _, _⟩ :=
    split_spec F h0 root t0 p e tg a0 x0 tl0 cs0 K dm ht0 hnd0 hb0 hsub hK
  refine ⟨out, Hf, lg, Ts, hspl, hlen, hrd, ?_, ?_, slice_len_last K hK cs0 hN⟩
  · intro j Tj hj
    refine ⟨hstr j Tj hj, ?_⟩
    rw [subtree_update (chunkNode (j * K) K) p t0 _ hsub, chunkNode_node]
  · intro j hj
    exact slice_len_mid K hK cs0 j hj

theorem claim_C2_witness :
    ∃ out Hf lg Ts,
      split_records 2 exHeap 0 (.element 0) ((2 : Nat) : Int) false = (.ok out, Hf, lg) ∧
      out.length = (exKids.length + 2 - 1) / 2 ∧
      readList 2 Hf out = some Ts ∧
      (∀ j Tj, Ts.get? j = some Tj →
        strip Tj = strip (updateAtPath (chunkNode (j * 2) 2) exTree []) ∧
        subtreeAtPath (updateAtPath (chunkNode (j * 2) 2) exTree []) [] =
          some (.node 0 "root" [] none none ((exKids.drop (j * 2)).take 2))) ∧
      (∀ j, j + 1 < (exKids.length + 2 - 1) / 2 →
        ((exKids.drop (j * 2)).take 2).length = 2) ∧
      ((exKids.drop (((exKids.length + 2 - 1) / 2 - 1) * 2)).take 2).length =
        (if exKids.length % 2 = 0 then 2 else exKids.length % 2) :=
  claim_C2 2 exHeap 0 exTree [] 0 "root" [("a", "1")] (some "t") none exKids 2 false
    exHeap_read exTree_nodup exHeap_bounded exTree_subtree (by decide) (by decide)

/-- C3 (amended): copy `i` is taken after the parent is mutated to hold
chunk `i`, so content-wise it is the tree with exactly chunk `i`'s
children in place; after `split_records` returns, the live source
parent holds exactly the last chunk's children.  The claim's added
contrast "not its original full child list" only holds when `N > K`:
with a single chunk (`N ≤ K`) the last chunk IS the full child list
(see the counterexample), so the amended statement asserts the
difference only for `K < N`. -/
theorem claim_C3
    (F : Nat) (h0 : Heap) (root : Nat) (t0 : XTree) (p : List Nat) (e : Nat)
    (tg : String) (a0 : List (String × String)) (x0 tl0 : Option String)
    (cs0 : List XTree) (K : Nat) (dm : Bool)
    (ht0 : readTree F h0 root = some t0) (hnd0 : (idsOf t0).Nodup)
    (hb0 : heapBounded h0)
    (hsub : subtreeAtPath t0 p = some (.node e tg a0 x0 tl0 cs0))
    (hK : 0 < K) (hN : 0 < cs0.length) :
    ∃ out Hf lg Ts,
      split_records F h0 root (.element e) (K : Int) dm = (.ok out, Hf, lg) ∧
      readList F Hf out = some Ts ∧
      (∀ j Tj, Ts.get? j = some Tj →
        strip Tj = strip (updateAtPath (chunkNode (j * K) K) t0 p)) ∧
      readTree F Hf root = some (updateAtPath
        (chunkNode (((cs0.length + K - 1) / K - 1) * K) K) t0 p) ∧
      subtreeAtPath (updateAtPath
          (chunkNode (((cs0.length + K - 1) / K - 1) * K) K) t0 p) p =
        some (.node e tg [] none none
          ((cs0.drop (((cs0.length + K - 1) / K - 1) * K)).take K)) ∧
      (K < cs0.length →
        (cs0.drop (((cs0.length + K - 1) / K - 1) * K)).take K ≠ cs0) := by
  obtain ⟨out, Hf, lg, Ts, hspl, hlen, hrd, hstr, _, _, _, _, _, _, hpos⟩ :=
    split_spec F h0 root t0 p e tg a0 x0 tl0 cs0 K dm ht0 hnd0 hb0 hsub hK
  obtain ⟨hHfe, hfin⟩ := hpos hN
  refine ⟨out, Hf, lg, Ts, hspl, hrd, hstr, hfin, ?_, ?_⟩
  · rw [subtree_update (chunkNode (((cs0.length + K - 1) / K - 1) * K) K) p t0 _ hsub,
      chunkNode_node]
  · intro hKN heq
    have hlen2 := congrArg List.length heq
    rw [List.length_take, List.length_drop] at hlen2
    have hminle : min K (cs0.length - ((cs0.length + K - 1) / K - 1) * K) ≤ K :=
      Nat.min_le_left _ _
    omega

theorem claim_C3_witness :
    ∃ out Hf lg Ts,
      split_records 2 exHeap 0 (.element 0) ((2 : Nat) : Int) false = (.ok out, Hf, lg) ∧
      readList 2 Hf out = some Ts ∧
      (∀ j Tj, Ts.get? j = some Tj →
        strip Tj = strip (updateAtPath (chunkNode (j * 2) 2) exTree [])) ∧
      readTree 2 Hf 0 = some (updateAtPath
        (chunkNode (((exKids.length + 2 - 1) / 2 - 1) * 2) 2) exTree []) ∧
      subtreeAtPath (updateAtPath
          (chunkNode (((exKids.length + 2 - 1) / 2 - 1) * 2) 2) exTree []) [] =
        some (.node 0 "root" [] none none
          ((exKids.drop (((exKids.length + 2 - 1) / 2 - 1) * 2)).take 2)) ∧
      (2 < exKids.length →
        (exKids.drop (((exKids.length + 2 - 1) / 2 - 1) * 2)).take 2 ≠ exKids) :=
  claim_C3 2 exHeap 0 exTree [] 0 "root" [("a", "1")] (some "t") none exKids 2 false
    exHeap_read exTree_nodup exHeap_bounded exTree_subtree (by decide) (by decide)

/-- C3 counterexample: the claim as stated also asserts that after the
call the live parent does NOT hold its original full child list.  With
3 children and chunk size 4 there is a single chunk equal to the full
child list, so the live parent ends the call holding exactly its
original children `[1, 2, 3]` — the "not its original full child list"
clause is false. -/
theorem claim_C3_cex :
    getchildren exHeap 0 = [1, 2, 3] ∧
    ((split_records 2 exHeap 0 (.element 0) ((4 : Nat) : Int) false).2.1).get 0 =
      some ⟨"root", [], none, none, [1, 2, 3]⟩ := by
  refine ⟨rfl, ?_⟩
  obtain ⟨out, Hf, lg, Ts, hspl, _, _, _, _, _, _, _, _, _, hpos⟩ :=
    split_spec 2 exHeap 0 exTree [] 0 "root" [("a", "1")] (some "t") none exKids 4 false
      exHeap_read exTree_nodup exHeap_bounded exTree_subtree (by decide)
  obtain ⟨hHfe, _⟩ := hpos (by decide)
  rw [hspl]
  show Hf.get 0 = some ⟨"root", [], none, none, [1, 2, 3]⟩
  rw [hHfe]
  rfl

/-- C4 (amended): every returned document is, content for content, the
original tree in which the target element's children are replaced by
exactly one chunk — and, which the original claim missed, the target
element's attributes, text and tail are cleared by `element.clear()`
(the tag survives; all structure and content outside the target element
is preserved, which is what `updateAtPath` expresses). -/
theorem claim_C4
    (F : Nat) (h0 : Heap) (root : Nat) (t0 : XTree) (p : List Nat) (e : Nat)
    (tg : String) (a0 : List (String × String)) (x0 tl0 : Option String)
    (cs0 : List XTree) (K : Nat) (dm : Bool)
    (ht0 : readTree F h0 root = some t0) (hnd0 : (idsOf t0).Nodup)
    (hb0 : heapBounded h0)
    (hsub : subtreeAtPath t0 p = some (.node e tg a0 x0 tl0 cs0))
    (hK : 0 < K) :
    ∃ out Hf lg Ts,
      split_records F h0 root (.element e) (K : Int) dm = (.ok out, Hf, lg) ∧
      readList F Hf out = some Ts ∧ Ts.length = out.length ∧
      (∀ j Tj, Ts.get? j = some Tj →
        strip Tj = strip (updateAtPath (chunkNode (j * K) K) t0 p) ∧
        subtreeAtPath (updateAtPath (chunkNode (j * K) K) t0 p) p =
          some (.node e tg [] none none ((cs0.drop (j * K)).take K)) ∧
        (∀ m ∈ idsOf Tj, h0.next ≤ m)) := by
  obtain ⟨out, Hf, lg, Ts, hspl, hlen, hrd, hstr, hid, _, _, _, _, _, _⟩ :=
    split_spec F h0 root t0 p e tg a0 x0 tl0 cs0 K dm ht0 hnd0 hb0 hsub hK
  refine ⟨out, Hf, lg, Ts, hspl, hrd, readList_length hrd, ?_⟩
  intro j Tj hj
  refine ⟨hstr j Tj hj, ?_, ?_⟩
  · rw [subtree_update (chunkNode (j * K) K) p t0 _ hsub, chunkNode_node]
  · intro m hm
    exact (hid m (ids_sub_of_mem (List.get?_mem hj) m hm)).1

theorem claim_C4_witness :
    ∃ out Hf lg Ts,
      split_records 2 exHeap 0 (.element 0) ((2 : Nat) : Int) false = (.ok out, Hf, lg) ∧
      readList 2 Hf out = some Ts ∧ Ts.length = out.length ∧
      (∀ j Tj, Ts.get? j = some Tj →
        strip Tj = strip (updateAtPath (chunkNode (j * 2) 2) exTree []) ∧
        subtreeAtPath (updateAtPath (chunkNode (j * 2) 2) exTree []) [] =
          some (.node 0 "root" [] none none ((exKids.drop (j * 2)).take 2)) ∧
        (∀ m ∈ idsOf Tj, exHeap.next ≤ m)) :=
  claim_C4 2 exHeap 0 exTree [] 0 "root" [("a", "1")] (some "t") none exKids 2 false
    exHeap_read exTree_nodup exHeap_bounded exTree_subtree (by decide)

/-- C4 counterexample: the claim as stated says each output preserves
the target element's own attributes and text.  Splitting the example
document (whose root carries attribute `a="1"` and text) with chunk
size 2 produces a first output whose target element has NO attributes,
no text and no tail: its content is
`node "root" [] none none [r1, r2]`, while the original attributes
`[("a", "1")]` are non-empty. -/
theorem claim_C4_cex :
    ((((split_records 2 exHeap 0 (.element 0) ((2 : Nat) : Int) false).1.toOption).bind
        (fun out => readList 2
          (split_records 2 exHeap 0 (.element 0) ((2 : Nat) : Int) false).2.1 out)).bind
      (fun Ts => Ts.get? 0)).map strip =
      some (.node 0 "root" [] none none
        [.node 0 "r1" [] none none [], .node 0 "r2" [] none none []]) ∧
    ([("a", "1")] : List (String × String)) ≠ [] := by
  obtain ⟨out, Hf, lg, Ts, hspl, hlen, hrd, hstr, _, _, _, _, _, _, _⟩ :=
    split_spec 2 exHeap 0 exTree [] 0 "root" [("a", "1")] (some "t") none exKids 2 false
      exHeap_read exTree_nodup exHeap_bounded exTree_subtree (by decide)
  have hTl : Ts.length = 2 := by
    rw [readList_length hrd, hlen]
    rfl
  cases Ts with
  | nil => simp at hTl
  | cons T0 rest =>
    refine ⟨?_, by decide⟩
    rw [hspl]
    show ((readList 2 Hf out).bind (fun Ts2 => Ts2.get? 0)).map strip =
      some (.node 0 "root" [] none none
        [.node 0 "r1" [] none none [], .node 0 "r2" [] none none []])
    rw [hrd]
    show some (strip T0) = some (.node 0 "root" [] none none
      [.node 0 "r1" [] none none [], .node 0 "r2" [] none none []])
    have h0 := hstr 0 T0 rfl
    rw [h0, updateAtPath_nil, exTree, chunkNode_node]
    rw [show (0 * 2 : Nat) = 0 from rfl, List.drop_zero]
    rw [exKids]
    rw [show List.take 2 [XTree.node 1 "r1" [] none none [],
      XTree.node 2 "r2" [] none none [], XTree.node 3 "r3" [] none none []] =
      [XTree.node 1 "r1" [] none none [], XTree.node 2 "r2" [] none none []] from rfl]
    simp only [strip_node, stripList_cons, stripList_nil]

/-- C9 (amended): in every iteration the `clear` erases the target's
attributes, text and tail as well as its children, so every returned
output document's target element — including the first chunk's — has no
attributes, no text and no tail; the live source element is likewise
cleared whenever at least one chunk is produced (`N > 0`).  Amendment:
with zero children no iteration runs, so the live source element is
untouched and keeps its attributes (see the counterexample). -/
theorem claim_C9
    (F : Nat) (h0 : Heap) (root : Nat) (t0 : XTree) (p : List Nat) (e : Nat)
    (tg : String) (a0 : List (String × String)) (x0 tl0 : Option String)
    (cs0 : List XTree) (K : Nat) (dm : Bool)
    (ht0 : readTree F h0 root = some t0) (hnd0 : (idsOf t0).Nodup)
    (hb0 : heapBounded h0)
    (hsub : subtreeAtPath t0 p = some (.node e tg a0 x0 tl0 cs0))
    (hK : 0 < K) :
    ∃ out Hf lg Ts,
      split_records F h0 root (.element e) (K : Int) dm = (.ok out, Hf, lg) ∧
      readList F Hf out = some Ts ∧
      (∀ j Tj, Ts.get? j = some Tj →
        strip Tj = strip (updateAtPath (chunkNode (j * K) K) t0 p) ∧
        subtreeAtPath (updateAtPath (chunkNode (j * K) K) t0 p) p =
          some (.node e tg [] none none ((cs0.drop (j * K)).take K))) ∧
      (0 < cs0.length → Hf.get e = some ⟨tg, [], none, none,
        pySlice (cs0.map rootIdOf) (((cs0.length + K - 1) / K - 1) * K) K⟩) ∧
      (cs0.length = 0 → Hf = h0) := by
  obtain ⟨out, Hf, lg, Ts, hspl, hlen, hrd, hstr, _, _, _, _, _, hzero, hpos⟩ :=
    split_spec F h0 root t0 p e tg a0 x0 tl0 cs0 K dm ht0 hnd0 hb0 hsub hK
  refine ⟨out, Hf, lg, Ts, hspl, hrd, ?_, fun hp => (hpos hp).1, fun hz => (hzero hz).1⟩
  intro j Tj hj
  refine ⟨hstr j Tj hj, ?_⟩
  rw [subtree_update (chunkNode (j * K) K) p t0 _ hsub, chunkNode_node]

theorem claim_C9_witness :
    ∃ out Hf lg Ts,
      split_records 2 exHeap 0 (.element 0) ((2 : Nat) : Int) false = (.ok out, Hf, lg) ∧
      readList 2 Hf out = some Ts ∧
      (∀ j Tj, Ts.get? j = some Tj →
        strip Tj = strip (updateAtPath (chunkNode (j * 2) 2) exTree []) ∧
        subtreeAtPath (updateAtPath (chunkNode (j * 2) 2) exTree []) [] =
          some (.node 0 "root" [] none none ((exKids.drop (j * 2)).take 2))) ∧
      (0 < exKids.length → Hf.get 0 = some ⟨"root", [], none, none,
        pySlice (exKids.map rootIdOf) (((exKids.length + 2 - 1) / 2 - 1) * 2) 2⟩) ∧
      (exKids.length = 0 → Hf = exHeap) :=
  claim_C9 2 exHeap 0 exTree [] 0 "root" [("a", "1")] (some "t") none exKids 2 false
    exHeap_read exTree_nodup exHeap_bounded exTree_subtree (by decide)

/-- C9 counterexample (to the unamended live-source clause): for a
target element that carries attributes and text but has ZERO children,
`split_records` produces no chunk, never calls `clear`, and the live
source element still carries its attribute and text after the call. -/
theorem claim_C9_cex :
    split_records 5 exLeafHeap 0 (.element 0) ((250 : Nat) : Int) false =
      (.ok [], exLeafHeap, []) ∧
    exLeafHeap.get 0 = some ⟨"r", [("a", "1")], some "x", none, []⟩ :=
  ⟨rfl, rfl⟩

/-- C5: the documents returned by `split_records` are mutually
independent: every output document's nodes are freshly allocated, the
id sets of distinct outputs are disjoint, and overwriting ANY node of
one output document (modelling any lxml field mutation of one of its
elements) leaves every other output document, and the live source
document, reading back exactly as before — in particular no child count
of an already-produced document changes. -/
theorem claim_C5
    (F : Nat) (h0 : Heap) (root : Nat) (t0 : XTree) (p : List Nat) (e : Nat)
    (tg : String) (a0 : List (String × String)) (x0 tl0 : Option String)
    (cs0 : List XTree) (K : Nat) (dm : Bool)
    (ht0 : readTree F h0 root = some t0) (hnd0 : (idsOf t0).Nodup)
    (hb0 : heapBounded h0)
    (hsub : subtreeAtPath t0 p = some (.node e tg a0 x0 tl0 cs0))
    (hK : 0 < K) :
    ∃ out Hf lg Ts tfin,
      split_records F h0 root (.element e) (K : Int) dm = (.ok out, Hf, lg) ∧
      readList F Hf out = some Ts ∧
      readTree F Hf root = some tfin ∧
      (∀ i j xj Ti Tj, i ≠ j → out.get? j = some xj →
        Ts.get? i = some Ti → Ts.get? j = some Tj →
        ∀ m nd2, m ∈ idsOf Ti →
          readTree F (Hf.set m nd2) xj = some Tj) ∧
      (∀ i Ti, Ts.get? i = some Ti → ∀ m nd2, m ∈ idsOf Ti →
        readTree F (Hf.set m nd2) root = some tfin) := by
  obtain ⟨out, Hf, lg, Ts, hspl, hlen, hrd, hstr, hid, hndup, hfr, hnext, hbf, hzero,
    hpos⟩ :=
    split_spec F h0 root t0 p e tg a0 x0 tl0 cs0 K dm ht0 hnd0 hb0 hsub hK
  have hidslt : ∀ m ∈ idsOf t0, m < h0.next := readTree_ids_lt hb0 ht0
  -- the final source tree and the bound on its ids
  obtain ⟨tfin, hfin, hfinlt⟩ : ∃ tfin, readTree F Hf root = some tfin ∧
      ∀ m ∈ idsOf tfin, m < h0.next := by
    rcases Nat.eq_zero_or_pos cs0.length with hz | hp
    · obtain ⟨hHf, _⟩ := hzero hz
      refine ⟨t0, by rw [hHf]; exact ht0, hidslt⟩
    · obtain ⟨_, hfin⟩ := hpos hp
      refine ⟨_, hfin, ?_⟩
      intro m hm
      exact hidslt m (update_ids_sub _ K p t0 _ hsub m hm)
  refine ⟨out, Hf, lg, Ts, tfin, hspl, hrd, hfin, ?_, ?_⟩
  · intro i j xj Ti Tj hij hxj hTi hTj m nd2 hm
    obtain ⟨Tj2, hTj2, hreadj⟩ := readList_get hrd j xj hxj
    rw [hTj] at hTj2
    cases hTj2
    refine readTree_frame hreadj ?_
    intro m2 hm2
    rw [Heap.get_set, if_neg ?_]
    intro heq
    subst heq
    exact nodup_idsOfList_disjoint Ts i j Ti Tj hndup hij hTi hTj m2 hm hm2
  · intro i Ti hTi m nd2 hm
    refine readTree_frame hfin ?_
    intro m2 hm2
    rw [Heap.get_set, if_neg ?_]
    intro heq
    subst heq
    have h1 := hfinlt m2 hm2
    have h2 := (hid m2 (ids_sub_of_mem (List.get?_mem hTi) m2 hm)).1
    omega

theorem claim_C5_witness :
    ∃ out Hf lg Ts tfin,
      split_records 2 exHeap 0 (.element 0) ((2 : Nat) : Int) false = (.ok out, Hf, lg) ∧
      readList 2 Hf out = some Ts ∧
      readTree 2 Hf 0 = some tfin ∧
      (∀ i j xj Ti Tj, i ≠ j → out.get? j = some xj →
        Ts.get? i = some Ti → Ts.get? j = some Tj →
        ∀ m nd2, m ∈ idsOf Ti →
          readTree 2 (Hf.set m nd2) xj = some Tj) ∧
      (∀ i Ti, Ts.get? i = some Ti → ∀ m nd2, m ∈ idsOf Ti →
        readTree 2 (Hf.set m nd2) 0 = some tfin) :=
  claim_C5 2 exHeap 0 exTree [] 0 "root" [("a", "1")] (some "t") none exKids 2 false
    exHeap_read exTree_nodup exHeap_bounded exTree_subtree (by decide)

/-- C6 (amended): for every non-empty tag and every iterable that
passes the truthiness check (`if not elements`), `get_element_by_tag`
raises nothing and returns the first element in iteration order whose
tag equals the tag string exactly (plain case-sensitive string
equality, no namespace resolution); when no element matches it logs an
error and returns no result.  Amendment: the original claim quantified
over EVERY iterable, but a falsy iterable (e.g. an empty list) is
rejected with `InvalidInput` before the loop runs — see the
counterexample. -/
theorem claim_C6 (h : Heap) (tag : String) (els : PyIter)
    (htag : tag ≠ "") (htr : els.truthy = true) :
    ∃ res lg, get_element_by_tag h tag els = (.ok res, lg) ∧
      ((∃ x pre post, els.items = pre ++ x :: post ∧ tagOfId h x = tag ∧
          (∀ y ∈ pre, tagOfId h y ≠ tag) ∧ res = some x ∧ lg = []) ∨
       ((∀ y ∈ els.items, tagOfId h y ≠ tag) ∧ res = none ∧
          lg = [Log.error ("Element with tag " ++ tag ++ " not found.")])) := by
  rw [get_element_by_tag, if_neg htag, if_neg (by rw [htr]; exact fun hc => Bool.noConfusion hc)]
  rcases findByTag_spec h tag els.items with ⟨x, hfind, pre, post, heq, htg, hpre⟩ |
    ⟨hfind, hnone⟩
  · refine ⟨some x, [], ?_, Or.inl ⟨x, pre, post, heq, htg, hpre, rfl, rfl⟩⟩
    simp only [hfind]
  · refine ⟨none, [Log.error ("Element with tag " ++ tag ++ " not found.")], ?_,
      Or.inr ⟨hnone, rfl, rfl⟩⟩
    simp only [hfind]

theorem claim_C6_witness :
    ∃ res lg, get_element_by_tag exHeap "r2" ⟨true, [1, 2, 3]⟩ = (.ok res, lg) ∧
      ((∃ x pre post, (PyIter.mk true [1, 2, 3]).items = pre ++ x :: post ∧
          tagOfId exHeap x = "r2" ∧
          (∀ y ∈ pre, tagOfId exHeap y ≠ "r2") ∧ res = some x ∧ lg = []) ∨
       ((∀ y ∈ (PyIter.mk true [1, 2, 3]).items, tagOfId exHeap y ≠ "r2") ∧
          res = none ∧
          lg = [Log.error ("Element with tag " ++ "r2" ++ " not found.")])) :=
  claim_C6 exHeap "r2" ⟨true, [1, 2, 3]⟩ (by decide) rfl

/-- C6 counterexample: the claim as stated quantifies over every
iterable of candidates, but an empty list is falsy, so the call raises
`InvalidInput` ("Parent element is required.") instead of iterating,
logging, or returning no result. -/
theorem claim_C6_cex :
    get_element_by_tag exHeap "r1" ⟨false, []⟩ =
      (.error (.invalidInput "Parent element is required."), []) := rfl

/-- C7: `InvalidInput` (a `ValueError` raised by the validation code)
is raised exactly for: construction with empty XML bytes; lookup with
an empty tag or a falsy candidate collection (an exhausted but truthy
iterator passes the check); split with an absent (`None`) or
non-`_Element` argument; write with an empty path.  In each case the
error is raised synchronously before any other effect: the heap is
untouched and nothing is logged. -/
theorem claim_C7 :
    (∀ (parse : List Nat → Heap × Nat) (xml : List Nat),
      (∃ s, xmlBreakerInit parse xml = .error (.invalidInput s)) ↔ xml = []) ∧
    (∀ parse : List Nat → Heap × Nat,
      xmlBreakerInit parse [] = .error (.invalidInput "XML bytes content is required.")) ∧
    (∀ (h : Heap) (tag : String) (els : PyIter),
      (∃ s lg, get_element_by_tag h tag els = (.error (.invalidInput s), lg)) ↔
        (tag = "" ∨ els.truthy = false)) ∧
    (∀ (h : Heap) (tag : String) (els : PyIter) (s : String) (lg : List Log),
      get_element_by_tag h tag els = (.error (.invalidInput s), lg) → lg = []) ∧
    (∀ (h : Heap) (tag : String), tag ≠ "" →
      ∃ lg, get_element_by_tag h tag ⟨true, []⟩ = (.ok none, lg)) ∧
    (∀ (F : Nat) (h : Heap) (root : Nat) (k : Int) (dm : Bool),
      split_records F h root .pyNone k dm =
        (.error (.invalidInput "Element is required."), h, [])) ∧
    (∀ (F : Nat) (h : Heap) (root : Nat) (ty : String) (k : Int) (dm : Bool),
      ∃ s, split_records F h root (.other ty) k dm =
        (.error (.invalidInput s), h, [])) ∧
    (∀ (F : Nat) (h : Heap) (root : Nat) (arg : PyArg) (k : Int) (dm : Bool)
        (H : Heap) (lg : List Log) (s : String),
      split_records F h root arg k dm = (.error (.invalidInput s), H, lg) →
        (arg = .pyNone ∨ ∃ ty, arg = .other ty) ∧ H = h ∧ lg = []) ∧
    (∀ (f : Nat) (h : Heap) (tr : Nat) (path : String),
      (∃ s, write_xml f h tr path = .error (.invalidInput s)) ↔ path = "") := by
  refine ⟨?_, ?_, ?_, ?_, ?_, ?_, ?_, ?_, ?_⟩
  · intro parse xml
    constructor
    · rintro ⟨s, hs⟩
      by_contra hne
      rw [xmlBreakerInit, if_neg hne] at hs
      exact Except.noConfusion hs
    · rintro rfl
      exact ⟨_, rfl⟩
  · intro parse
    rfl
  · intro h tag els
    constructor
    · rintro ⟨s, lg, hs⟩
      by_cases ht : tag = ""
      · exact Or.inl ht
      · by_cases he : els.truthy = false
        · exact Or.inr he
        · exfalso
          rw [get_element_by_tag, if_neg ht, if_neg he] at hs
          cases hfind : findByTag h tag els.items with
          | some x =>
            simp only [hfind] at hs
            exact Except.noConfusion (congrArg Prod.fst hs)
          | none =>
            simp only [hfind] at hs
            exact Except.noConfusion (congrArg Prod.fst hs)
    · intro hor
      rcases hor with ht | he
      · exact ⟨"Tag is required.", [], by rw [get_element_by_tag, if_pos ht]⟩
      · by_cases ht : tag = ""
        · exact ⟨"Tag is required.", [], by rw [get_element_by_tag, if_pos ht]⟩
        · exact ⟨"Parent element is required.", [],
            by rw [get_element_by_tag, if_neg ht, if_pos he]⟩
  · intro h tag els s lg hs
    by_cases ht : tag = ""
    · rw [get_element_by_tag, if_pos ht] at hs
      exact (Prod.mk.injEq _ _ _ _ ▸ hs).2.symm ▸ rfl
    · by_cases he : els.truthy = false
      · rw [get_element_by_tag, if_neg ht, if_pos he] at hs
        exact (Prod.mk.injEq _ _ _ _ ▸ hs).2.symm ▸ rfl
      · rw [get_element_by_tag, if_neg ht, if_neg he] at hs
        cases hfind : findByTag h tag els.items with
        | some x =>
          simp only [hfind] at hs
          exact Except.noConfusion (congrArg Prod.fst hs)
        | none =>
          simp only [hfind] at hs
          exact Except.noConfusion (congrArg Prod.fst hs)
  · intro h tag htag
    refine ⟨[Log.error ("Element with tag " ++ tag ++ " not found.")], ?_⟩
    rw [get_element_by_tag, if_neg htag, if_neg (fun hc => Bool.noConfusion hc)]
    rfl
  · intro F h root k dm
    rfl
  · intro F h root ty k dm
    exact ⟨_, rfl⟩
  · intro F h root arg k dm H lg s heq
    cases arg with
    | pyNone =>
      rw [split_records] at heq
      refine ⟨Or.inl rfl, ?_, ?_⟩
      · exact congrArg (fun x => x.2.1) heq.symm
      · exact congrArg (fun x => x.2.2) heq.symm
    | other ty =>
      rw [split_records] at heq
      refine ⟨Or.inr ⟨ty, rfl⟩, ?_, ?_⟩
      · exact congrArg (fun x => x.2.1) heq.symm
      · exact congrArg (fun x => x.2.2) heq.symm
    | element e =>
      exfalso
      rw [split_records] at heq
      cases hch : pyChunked (getchildren h e) k with
      | error er =>
        have her : er = .rangeZeroStep := by
          rw [pyChunked] at hch
          by_cases h0 : k = 0
          · rw [if_pos h0] at hch
            injection hch with hh
            exact hh.symm
          · rw [if_neg h0] at hch
            by_cases hneg : k < 0
            · rw [if_pos hneg] at hch
              exact Except.noConfusion hch
            · rw [if_neg hneg] at hch
              exact Except.noConfusion hch
        subst her
        simp only [hch] at heq
        have h1 := congrArg (fun x => x.1) heq
        simp only at h1
        injection h1 with h2
        exact Err.noConfusion h2
      | ok chunks =>
        simp only [hch] at heq
        have h1 := congrArg (fun x => x.1) heq
        simp only at h1
        exact splitLoop_no_invalid F root e dm chunks h s h1
  · intro f h tr path
    constructor
    · rintro ⟨s, hs⟩
      by_contra hne
      rw [write_xml, if_neg hne] at hs
      exact Except.noConfusion hs
    · rintro rfl
      exact ⟨_, rfl⟩

theorem claim_C7_witness :
    xmlBreakerInit (fun _ => (exHeap, 0)) [] =
      .error (.invalidInput "XML bytes content is required.") ∧
    (∃ lg, get_element_by_tag exHeap "x" ⟨true, []⟩ = (.ok none, lg)) ∧
    ((∃ s, write_xml 2 exHeap 0 "" = .error (.invalidInput s)) ↔ ("" : String) = "") :=
  ⟨claim_C7.2.1 (fun _ => (exHeap, 0)),
   claim_C7.2.2.2.2.1 exHeap "x" (by decide),
   claim_C7.2.2.2.2.2.2.2.2 2 exHeap 0 ""⟩

/-- C8: for every document tree and non-empty path, `write_xml`
serializes the whole owning document (`_ElementTree.write` writes the
entire tree that owns the element) as UTF-8 with an XML declaration and
pretty-printing; the file is opened in `"wb"` mode (created or
truncated, overwriting any existing file) and the `with` block closes
the handle on every exit path, so the event trace is open-write-close. -/
theorem claim_C8 (f : Nat) (h : Heap) (tr : Nat) (path : String) (hpath : path ≠ "") :
    write_xml f h tr path = .ok ⟨[.openWriteTruncate path, .writeBytes, .close],
      "utf-8", true, true, readTree f h tr⟩ ∧
    (∀ t, readTree f h tr = some t →
      ∃ w, write_xml f h tr path = .ok w ∧ w.content = some t ∧
        w.events = [.openWriteTruncate path, .writeBytes, .close] ∧
        w.encoding = "utf-8" ∧ w.xmlDeclaration = true ∧ w.prettyPrint = true) := by
  have h1 : write_xml f h tr path = .ok ⟨[.openWriteTruncate path, .writeBytes, .close],
      "utf-8", true, true, readTree f h tr⟩ := by
    rw [write_xml, if_neg hpath]
  refine ⟨h1, fun t ht => ⟨_, h1, ?_, rfl, rfl, rfl, rfl⟩⟩
  simp only [ht]

theorem claim_C8_witness :
    write_xml 2 exHeap 0 "out.xml" = .ok ⟨[.openWriteTruncate "out.xml", .writeBytes,
      .close], "utf-8", true, true, readTree 2 exHeap 0⟩ ∧
    (∀ t, readTree 2 exHeap 0 = some t →
      ∃ w, write_xml 2 exHeap 0 "out.xml" = .ok w ∧ w.content = some t ∧
        w.events = [.openWriteTruncate "out.xml", .writeBytes, .close] ∧
        w.encoding = "utf-8" ∧ w.xmlDeclaration = true ∧ w.prettyPrint = true) :=
  claim_C8 2 exHeap 0 "out.xml" (by decide)

/-- C10: with chunk size 0, `split_records` raises the `range()` step
`ValueError` for every element (even one with zero children); this
error is not one of the explicit `InvalidInput` validations and is
raised before any mutation — the returned heap is the input heap
unchanged.  With a negative chunk size and an element with at least one
child, `range(0, n, k)` is empty, so `split_records` returns the empty
list and leaves the element (and the whole heap) untouched. -/
theorem claim_C10 :
    (∀ (F : Nat) (h : Heap) (root e : Nat) (dm : Bool), ∃ lg,
      split_records F h root (.element e) 0 dm = (.error .rangeZeroStep, h, lg)) ∧
    (∀ s, (Err.rangeZeroStep : Err) ≠ .invalidInput s) ∧
    (∀ (F : Nat) (h : Heap) (root e : Nat) (k : Int) (dm : Bool), k < 0 →
      getchildren h e ≠ [] →
      ∃ lg, split_records F h root (.element e) k dm = (.ok [], h, lg)) := by
  refine ⟨?_, fun s hc => Err.noConfusion hc, ?_⟩
  · intro F h root e dm
    have hch : pyChunked (getchildren h e) (0 : Int) = .error .rangeZeroStep := by
      rw [pyChunked, if_pos rfl]
    refine ⟨if dm then
        [Log.info (toString (getchildren h e).length ++ " records found in element.")]
      else [], ?_⟩
    rw [split_records]
    simp only [hch]
  · intro F h root e k dm hk hne
    have hch : pyChunked (getchildren h e) k = .ok [] := by
      rw [pyChunked, if_neg (by omega), if_pos hk]
    refine ⟨if dm then
        [Log.info (toString (getchildren h e).length ++ " records found in element.")]
      else [], ?_⟩
    rw [split_records]
    simp only [hch, splitLoop_nil, List.append_nil]

theorem claim_C10_witness :
    (∃ lg, split_records 2 exHeap 0 (.element 0) 0 false =
      (.error .rangeZeroStep, exHeap, lg)) ∧
    (∃ lg, split_records 2 exHeap 0 (.element 0) (-3) false =
      (.ok [], exHeap, lg)) :=
  ⟨claim_C10.1 2 exHeap 0 0 false,
   claim_C10.2.2 2 exHeap 0 0 (-3) false (by decide) (by decide)⟩

end XmlBreaker
